import Mathlib

/-!
Verification of the discovery/classification engine of `discover.py`
(codebase analysis tool: stack detection, feature clustering, domain
assignment).  Python functions are shallowly embedded as executable Lean
definitions; filesystem reads and JSON parsing appear as explicit inputs
(parsed-or-failed values), everything downstream of them is modelled
faithfully, statement by statement.
-/

namespace Discover

/-! ## ASCII character primitives

Python's regexes in `_camel_case_split` use the ASCII classes `[a-z0-9]`,
`[A-Z]`, `[^a-zA-Z0-9]`; `str.lower()` is only ever applied to tokens that
contain ASCII alphanumerics exclusively, so an ASCII case map is faithful.
The classes are expressed over the code point. -/

def isLowerA (c : Char) : Bool := 97 ≤ c.toNat && c.toNat ≤ 122

def isUpperA (c : Char) : Bool := 65 ≤ c.toNat && c.toNat ≤ 90

def isDigitA (c : Char) : Bool := 48 ≤ c.toNat && c.toNat ≤ 57

def isAlnumA (c : Char) : Bool := isLowerA c || isUpperA c || isDigitA c

/-- ASCII lower-casing, as applied by `str.lower()` to ASCII tokens. -/
def pyLower (c : Char) : Char :=
  if isUpperA c then Char.ofNat (c.toNat + 32) else c

/-- First step of `_camel_case_split`:
`re.sub(r"([a-z0-9])([A-Z])", r"\x7b1 \x7d2", name)` — insert a space
between a lower-case/digit character and a following upper-case one. -/
def camelSplitSpace : List Char → List Char
  | [] => []
  | [c] => [c]
  | c1 :: c2 :: rest =>
    if (isLowerA c1 || isDigitA c1) && isUpperA c2 then
      c1 :: ' ' :: camelSplitSpace (c2 :: rest)
    else
      c1 :: camelSplitSpace (c2 :: rest)

/-- Second step of `_camel_case_split`:
`re.sub(r"[^a-zA-Z0-9]", " ", s)` — every non-alphanumeric becomes a space. -/
def punctToSpace (l : List Char) : List Char :=
  l.map (fun c => if isAlnumA c then c else ' ')

/-- Python `s.split()` restricted to the space character (after
`punctToSpace` the only whitespace left is a space): raw chunks between
separators, before dropping empties. -/
def splitSpaces : List Char → List (List Char)
  | [] => [[]]
  | c :: rest =>
    if c = ' ' then [] :: splitSpaces rest
    else
      match splitSpaces rest with
      | [] => [[c]]
      | t :: ts => (c :: t) :: ts

/-- `_camel_case_split` at the character-list level:
split camelCase/PascalCase and punctuation into lowercase tokens. -/
def camelCaseSplitL (name : List Char) : List (List Char) :=
  (((splitSpaces (punctToSpace (camelSplitSpace name))).filter
      (fun t => !t.isEmpty)).map (fun t => t.map pyLower))

/-- `_camel_case_split(name)` — the list of lowercase tokens. -/
def camelCaseSplit (name : String) : List String :=
  (camelCaseSplitL name.data).map String.mk

/-- `_normalize_name(name)` = `"".join(_camel_case_split(name))`. -/
def normalizeName (name : String) : String :=
  String.mk (camelCaseSplitL name.data).flatten

/-! ## String helpers shared by the detectors -/

/-- Python `s.startswith(pre)`. -/
def pyStartsWith (s pre : String) : Bool := pre.data.isPrefixOf s.data

/-- Python `s.endswith(suf)`. -/
def pyEndsWith (s suf : String) : Bool := suf.data.isSuffixOf s.data

/-- ASCII upper-casing, as applied by `str.upper()` to HTTP method names. -/
def pyUpper (c : Char) : Char :=
  if isLowerA c then Char.ofNat (c.toNat - 32) else c

/-- `btype.replace("Trigger", "")` — remove every (non-overlapping,
left-to-right) occurrence of "Trigger". -/
def replaceTriggerL : List Char → List Char
  | [] => []
  | 'T' :: 'r' :: 'i' :: 'g' :: 'g' :: 'e' :: 'r' :: rest => replaceTriggerL rest
  | c :: rest => c :: replaceTriggerL rest

/-- Python `s.split("/")` (keeping empty chunks). -/
def splitOnSlash : List Char → List (List Char)
  | [] => [[]]
  | c :: rest =>
    if c = '/' then [] :: splitOnSlash rest
    else
      match splitOnSlash rest with
      | [] => [[c]]
      | t :: ts => (c :: t) :: ts

/-- Last element of a list, with a default. -/
def lastD : List (List Char) → List Char → List Char
  | [], d => d
  | [x], _ => x
  | _ :: x :: xs, d => lastD (x :: xs) d


/-- `_common_prefix_len(a, b)` — length of the longest common prefix. -/
def commonPrefixLen : List Char → List Char → Nat
  | a :: as, b :: bs => if a = b then commonPrefixLen as bs + 1 else 0
  | _, _ => 0

/-- `_common_prefix_len` on strings. -/
def prefLen (a b : String) : Nat := commonPrefixLen a.data b.data

/-- Python slicing `s[:n]`. -/
def takePre (n : Nat) (s : String) : String := String.mk (s.data.take n)

/-- Python string comparison: lexicographic by code point. -/
def lexLe : List Char → List Char → Bool
  | [], _ => true
  | _ :: _, [] => false
  | a :: as, b :: bs => if a = b then lexLe as bs else decide (a < b)

def strLe (a b : String) : Bool := lexLe a.data b.data

/-- Insert into a sorted list, before the first element not strictly
smaller — the placement a stable sort gives an element coming earlier in
the input. -/
def insBy (le : α → α → Bool) (a : α) : List α → List α
  | [] => [a]
  | b :: bs => if le a b then a :: b :: bs else b :: insBy le a bs

/-- Stable insertion sort; agrees with Python's stable `list.sort`. -/
def sortBy (le : α → α → Bool) : List α → List α
  | [] => []
  | a :: as => insBy le a (sortBy le as)

/-- Python `needle in hay` (substring test). -/
def isSubstr (needle hay : List Char) : Bool :=
  match hay with
  | [] => needle.isEmpty
  | _ :: rest => needle.isPrefixOf hay || isSubstr needle rest

/-- Association-list lookup (`d[k]` / `d.get(k)`). -/
def lookupA : List (String × α) → String → Option α
  | [], _ => none
  | e :: es, k => if e.1 = k then some e.2 else lookupA es k

/-- `d.pop(k)`'s removal effect. -/
def eraseA : List (String × α) → String → List (String × α)
  | [], _ => []
  | e :: es, k => if e.1 = k then es else e :: eraseA es k

/-- `d[k] = v`: replace in place when the key exists, else append. -/
def setA : List (String × α) → String → α → List (String × α)
  | [], k, v => [(k, v)]
  | e :: es, k, v => if e.1 = k then (k, v) :: es else e :: setA es k v

/-- The tier tag given to a clustering candidate (a closed set of three
strings in the source). -/
inductive Tier where
  | frontend
  | backend
  | mobile
deriving DecidableEq, Repr

/-- One clustering candidate: `(normalized_name, tier, path, type_hint)`. -/
structure Item where
  norm : String
  tier : Tier
  path : String
  hint : String
deriving DecidableEq, Repr

/-- A UI component record (`detect_ui_components` output shape). -/
structure UiComponent where
  name : String
  path : String
  file_count : Nat
deriving DecidableEq, Repr

/-- A serverless function record (`detect_serverless_functions` shape). -/
structure ServerlessFunction where
  name : String
  trigger : String
  route : Option String
  methods : List String
  type_hint : String
  path : String
deriving DecidableEq, Repr

/-- A discovered feature record (the `features` argument of
`cluster_features`; the function receives but never reads it). -/
structure FeatureRec where
  name : String
  description : String
  confidence : String
  evidence : String
deriving DecidableEq, Repr

/-- Value stored in `clusters_map`: the three tier path lists (an absent
dict key behaves as the empty list) and the type hint. -/
structure ClusterData where
  frontend : List String
  backend : List String
  mobile : List String
  type_hint : String
deriving DecidableEq, Repr

def emptyData : ClusterData := ⟨[], [], [], ""⟩

/-- Candidate items contributed by UI components: normalized name;
`mobile` tier when the path contains "/screens/", else `frontend`;
the path with a trailing slash; default type hint. -/
def uiItems (ui : List UiComponent) : List Item :=
  ui.map (fun comp =>
    ⟨normalizeName comp.name,
     if isSubstr "/screens/".data comp.path.data then Tier.mobile
     else Tier.frontend,
     comp.path ++ "/", "user-facing"⟩)

/-- Candidate items contributed by serverless functions, skipping
underscore-prefixed names. -/
def backendItems (sf : List ServerlessFunction) : List Item :=
  (sf.filter (fun f => !pyStartsWith f.name "_")).map (fun f =>
    ⟨normalizeName f.name, Tier.backend, f.path, f.type_hint⟩)

/-- `clusters_map[common].setdefault(tier, []).append(path)` followed by
the type-hint override (any hint other than "user-facing" wins). -/
def applyItem (d : ClusterData) (it : Item) : ClusterData :=
  let d1 :=
    match it.tier with
    | .frontend => { d with frontend := d.frontend ++ [it.path] }
    | .backend => { d with backend := d.backend ++ [it.path] }
    | .mobile => { d with mobile := d.mobile ++ [it.path] }
  if it.hint ≠ "user-facing" then { d1 with type_hint := it.hint } else d1

/-- `clusters_map[norm] = \x7btier: [path], "type_hint": type_hint\x7d`. -/
def seedData (it : Item) : ClusterData :=
  match it.tier with
  | .frontend => ⟨[it.path], [], [], it.hint⟩
  | .backend => ⟨[], [it.path], [], it.hint⟩
  | .mobile => ⟨[], [], [it.path], it.hint⟩

/-- The scan over `clusters_map.keys()` maximizing the common-prefix
length, subject to the 4-character floor (strict improvement, so the
first qualifying key encountered wins ties). -/
def findBestAux (norm : String) (acc : Option String × Nat) :
    List String → Option String × Nat
  | [] => acc
  | k :: ks =>
    if 4 ≤ prefLen norm k ∧ acc.2 < prefLen norm k then
      findBestAux norm (some k, prefLen norm k) ks
    else findBestAux norm acc ks

def findBest (norm : String) (keys : List String) : Option String × Nat :=
  findBestAux norm (none, 0) keys

/-- Re-keying step of the merge branch:
`if common != best_key: clusters_map[common] = clusters_map.pop(best_key)`. -/
def mergeRekey (cm : List (String × ClusterData)) (it : Item)
    (bk : String) (bp : Nat) : List (String × ClusterData) :=
  if takePre bp it.norm = bk then cm
  else setA (eraseA cm bk) (takePre bp it.norm)
    ((lookupA cm bk).getD emptyData)

/-- Whole merge branch: re-key, then mutate the cluster at `common`. -/
def mergeStep (cm : List (String × ClusterData)) (it : Item)
    (bk : String) (bp : Nat) : List (String × ClusterData) :=
  setA (mergeRekey cm it bk bp) (takePre bp it.norm)
    (applyItem ((lookupA (mergeRekey cm it bk bp)
      (takePre bp it.norm)).getD emptyData) it)

/-- One iteration of the greedy clustering loop over a candidate item. -/
def insertItem (cm : List (String × ClusterData)) (it : Item) :
    List (String × ClusterData) :=
  match findBest it.norm (cm.map Prod.fst) with
  | (some bk, bp) => mergeStep cm it bk bp
  | (none, _) => setA cm it.norm (seedData it)

/-- The full greedy loop: fold the sorted items into the cluster map. -/
def clusterRun (items : List Item) : List (String × ClusterData) :=
  items.foldl insertItem []

/-- Output cluster record. -/
structure FeatureCluster where
  name : String
  frontend : List String
  backend : List String
  mobile : List String
  has_tests : Bool
  type_hint : String
  confidence : String
deriving DecidableEq, Repr

/-- Build one output cluster from a map entry: confidence counts how many
of the three tier lists are non-empty (≥3 high, 2 medium, else low). -/
def mkCluster (e : String × ClusterData) : FeatureCluster :=
  let tc := (if e.2.frontend.isEmpty then 0 else 1)
    + (if e.2.backend.isEmpty then 0 else 1)
    + (if e.2.mobile.isEmpty then 0 else 1)
  ⟨e.1, e.2.frontend, e.2.backend, e.2.mobile, false, e.2.type_hint,
   if 3 ≤ tc then "high" else if 2 ≤ tc then "medium" else "low"⟩

/-- `cluster_features(ui_components, serverless_functions, features)`:
collect candidates, sort by normalized name, run the greedy prefix
grouping, and emit clusters sorted by key. -/
def cluster_features (ui : List UiComponent) (sf : List ServerlessFunction)
    (features : List FeatureRec) : List FeatureCluster :=
  let items := uiItems ui ++ backendItems sf
  if items.isEmpty then []
  else
    (sortBy (fun (a b : String × ClusterData) => strLe a.1 b.1)
        (clusterRun (sortBy (fun a b => strLe a.norm b.norm) items))).map
      mkCluster

/-! ### Instrumented run

`insertItemM` is `insertItem` where each map entry additionally carries
the normalized names of the candidates merged into it (the erasure of
that ghost field is proved to recover `insertItem`). -/

def mergeRekeyM (cm : List (String × (ClusterData × List String)))
    (it : Item) (bk : String) (bp : Nat) :
    List (String × (ClusterData × List String)) :=
  if takePre bp it.norm = bk then cm
  else setA (eraseA cm bk) (takePre bp it.norm)
    ((lookupA cm bk).getD (emptyData, []))

def mergeStepM (cm : List (String × (ClusterData × List String)))
    (it : Item) (bk : String) (bp : Nat) :
    List (String × (ClusterData × List String)) :=
  setA (mergeRekeyM cm it bk bp) (takePre bp it.norm)
    (applyItem ((lookupA (mergeRekeyM cm it bk bp)
        (takePre bp it.norm)).getD (emptyData, [])).1 it,
     ((lookupA (mergeRekeyM cm it bk bp)
        (takePre bp it.norm)).getD (emptyData, [])).2 ++ [it.norm])

def insertItemM (cm : List (String × (ClusterData × List String)))
    (it : Item) : List (String × (ClusterData × List String)) :=
  match findBest it.norm (cm.map Prod.fst) with
  | (some bk, bp) => mergeStepM cm it bk bp
  | (none, _) => setA cm it.norm (seedData it, [it.norm])

def clusterRunM (items : List Item) :
    List (String × (ClusterData × List String)) :=
  items.foldl insertItemM []

/-- Invariant on the key structure of `clusters_map`: keys are pairwise
distinct and pairwise share a common prefix strictly below the 4-character
floor. -/
structure KeyInv (cm : List (String × ClusterData)) : Prop where
  nodup : (cm.map Prod.fst).Nodup
  sep : (cm.map Prod.fst).Pairwise (fun k1 k2 => prefLen k1 k2 < 4)

/-- Forget the ghost member list. -/
def projSt (cm : List (String × (ClusterData × List String))) :
    List (String × ClusterData) :=
  cm.map (fun e => (e.1, e.2.1))

/-- Per-entry invariant: the cluster key is a prefix of the normalized
name of every merged candidate, and a cluster that absorbed at least two
candidates has a key of length ≥ 4. -/
structure MemInv (cm : List (String × (ClusterData × List String))) :
    Prop where
  mem_pre : ∀ e ∈ cm, ∀ m ∈ e.2.2, e.1.data <+: m.data
  key_len : ∀ e ∈ cm, 2 ≤ e.2.2.length → 4 ≤ e.1.data.length

/-! ## Scan constants (`EXCLUDE_DIRS`, `SOURCE_EXTENSIONS`, limits) -/

def EXCLUDE_DIRS : List String :=
  [".agentic", ".agentic-journal", ".agentic-state",
   "node_modules", ".git", "__pycache__", "build", "dist",
   ".next", ".nuxt", "target", "vendor", ".venv", "venv",
   "env", ".env", ".tox", ".mypy_cache", ".pytest_cache",
   "coverage", ".coverage", "htmlcov", ".eggs", "*.egg-info",
   ".gradle", ".idea", ".vscode", "bin", "obj"]

def SOURCE_EXTENSIONS : List String :=
  [".py", ".ts", ".js", ".tsx", ".jsx", ".go", ".rs", ".java",
   ".rb", ".gd", ".cs", ".cpp", ".c", ".swift", ".kt", ".scala",
   ".php", ".ex", ".exs", ".hs", ".ml", ".clj"]

def MAX_FILES_SCAN : Nat := 10000

def MAX_DEPTH : Nat := 5

/-- `should_exclude(path)`: some part is in the deny list or dot-prefixed. -/
def should_exclude (parts : List String) : Bool :=
  parts.any (fun part => decide (part ∈ EXCLUDE_DIRS) || pyStartsWith part ".")

/-! ## Serverless-function detection (`detect_serverless_functions`) -/

/-- One entry of a `function.json` "bindings" array (the fields the
detector reads; a missing key reads as the default the code supplies). -/
structure AzureBinding where
  type : String
  direction : Option String
  route : Option String
  methods : List String
deriving DecidableEq, Repr

/-- One `function.json` found by `root.rglob("function.json")`.  `parsed`
is the outcome of `json.loads` plus the binding scan: `none` models the
exception path (malformed JSON or bindings of the wrong shape). -/
structure AzureFile where
  relParts : List String
  parentName : String
  parentRel : String
  parsed : Option (List AzureBinding)
deriving DecidableEq, Repr

/-- One file under the `api/` directory (Vercel-style serverless). -/
structure ApiFile where
  relParts : List String
  stem : String
  ext : String
  relNoExt : String
  relPath : String
deriving DecidableEq, Repr

/-- The filesystem evidence `detect_serverless_functions` reads: the
Azure descriptor files in `rglob` order, the file names present at the
root (probed for AWS config files), and the `api/` directory listing in
sorted order (`none` when the directory does not exist). -/
structure ServerlessFs where
  azureFiles : List AzureFile
  rootFiles : List String
  apiDir : Option (List ApiFile)
deriving DecidableEq, Repr

/-- `_serverless_type_hint(name)`: prefix convention on the lowered name. -/
def serverlessTypeHint (name : String) : String :=
  let lower := String.mk (name.data.map pyLower)
  if pyStartsWith lower "admin" then "admin"
  else if pyStartsWith lower "mobile" then "mobile"
  else if pyStartsWith lower "internal" || pyStartsWith lower "system" ||
      pyStartsWith lower "cron" || pyStartsWith lower "scheduled" then
    "infrastructure"
  else "user-facing"

/-- The binding loop: the last in-direction `*Trigger` binding wins,
providing trigger (suffix stripped and lowered), route and methods. -/
def scanBindings (bindings : List AzureBinding) :
    Option String × Option String × List String :=
  bindings.foldl
    (fun acc b =>
      if b.direction = some "in" ∧ pyEndsWith b.type "Trigger" = true then
        (some (String.mk ((replaceTriggerL b.type.data).map pyLower)),
         b.route, b.methods)
      else acc)
    (none, none, [])

/-- Build the `ServerlessFunction` record for one parsed `function.json`
(`trigger or "unknown"` is Python truthiness: an empty trigger string
also falls back). -/
def mkAzureEntry (f : AzureFile) (bindings : List AzureBinding) :
    ServerlessFunction :=
  { name := f.parentName,
    trigger :=
      match (scanBindings bindings).1 with
      | some t => if t = "" then "unknown" else t
      | none => "unknown",
    route := (scanBindings bindings).2.1,
    methods :=
      if (scanBindings bindings).2.2 ≠ [] then
        (scanBindings bindings).2.2.map (fun m => String.mk (m.data.map pyUpper))
      else [],
    type_hint := serverlessTypeHint f.parentName,
    path := f.parentRel }

/-- The Azure loop: excluded paths are skipped, a parse failure drops
that single file (`except Exception: continue`), a parsed file yields one
entry. -/
def azureEntries : List AzureFile → List ServerlessFunction
  | [] => []
  | f :: fs =>
    if should_exclude f.relParts then azureEntries fs
    else
      match f.parsed with
      | none => azureEntries fs
      | some bindings => mkAzureEntry f bindings :: azureEntries fs

def AWS_CONFIGS : List String :=
  ["serverless.yml", "serverless.yaml", "template.yaml", "template.yml"]

/-- First AWS config file that exists at the root (`break` after one). -/
def firstAws : List String → List String → Option String
  | [], _ => none
  | c :: cs, rootFiles =>
    if c ∈ rootFiles then some c else firstAws cs rootFiles

def awsEntries (rootFiles : List String) : List ServerlessFunction :=
  match firstAws AWS_CONFIGS rootFiles with
  | some cfg =>
    [⟨"_aws_lambda_config", "config_file", none, [], "infrastructure", cfg⟩]
  | none => []

def vercelEntries : Option (List ApiFile) → List ServerlessFunction
  | none => []
  | some fs =>
    (fs.filter (fun f => decide (f.ext ∈ SOURCE_EXTENSIONS) &&
        !should_exclude f.relParts)).map
      (fun f => ⟨f.stem, "http", some f.relNoExt, [],
        serverlessTypeHint f.stem, f.relPath⟩)

/-- `detect_serverless_functions(root)` over the modelled evidence. -/
def detect_serverless_functions (fs : ServerlessFs) :
    List ServerlessFunction :=
  azureEntries fs.azureFiles ++ awsEntries fs.rootFiles ++
    vercelEntries fs.apiDir

/-! ## Domain assignment (`detect_domains`) -/

/-- A sub-project record as produced by `detect_sub_projects` (which
never sets `file_count`; the `.get("file_count", 3)` default is modelled
by the optional field). -/
structure SubProject where
  name : String
  path : String
  language : Option String
  framework : Option String
  has_tests : Bool
  file_count : Option Nat
deriving DecidableEq, Repr

structure InfraPattern where
  type : String
  path : String
  detail : String
deriving DecidableEq, Repr

structure Domain where
  name : String
  type : String
  sub_projects : List String
  clusters : List String
  infra_paths : List String
  estimated_features : Nat
deriving DecidableEq, Repr

/-- `_FRAMEWORK_DOMAIN_TYPE` lookup table. -/
def FRAMEWORK_DOMAIN_TYPE : List (String × String) :=
  [("React", "frontend"), ("Vue", "frontend"), ("Angular", "frontend"),
   ("Next.js", "frontend"), ("Nuxt", "frontend"), ("SvelteKit", "frontend"),
   ("Svelte", "frontend"), ("Astro", "frontend"), ("Gatsby", "frontend"),
   ("Remix", "frontend"), ("Electron", "frontend"),
   ("React Native", "mobile"), ("Flutter", "mobile"),
   ("Express", "backend"), ("FastAPI", "backend"), ("Django", "backend"),
   ("Flask", "backend"), ("Fastify", "backend"), ("Koa", "backend"),
   ("Hono", "backend"), ("Gin", "backend"), ("Echo", "backend"),
   ("Fiber", "backend"), ("Chi", "backend"), ("Gorilla Mux", "backend"),
   ("Actix Web", "backend"), ("Axum", "backend"), ("Rocket", "backend"),
   ("Warp", "backend"), ("Azure Functions", "backend"),
   ("Bevy", "frontend"), ("Tauri", "frontend")]

def clusterPaths (c : FeatureCluster) : List String :=
  c.frontend ++ c.backend ++ c.mobile

/-- A cluster matches a sub-project when one of its member paths starts
with the sub-project name + "/" or with its recorded path. -/
def spMatch (sp : SubProject) (c : FeatureCluster) : Bool :=
  (clusterPaths c).any (fun p =>
    pyStartsWith p (sp.name ++ "/") || pyStartsWith p sp.path)

/-- Step 1 inner loop: collect the matching clusters not yet claimed,
threading the claimed-set. -/
def matchClusters (sp : SubProject) (fcs : List FeatureCluster)
    (assigned : List String) : List String × List String :=
  fcs.foldl
    (fun (acc : List String × List String) c =>
      if spMatch sp c then
        if c.name ∈ acc.2 then acc
        else (acc.1 ++ [c.name], acc.2 ++ [c.name])
      else acc)
    ([], assigned)

/-- Step 1: one domain per sub-project, claiming clusters by path prefix. -/
def subProjectDomains (sps : List SubProject) (fcs : List FeatureCluster) :
    List Domain × List String :=
  sps.foldl
    (fun (acc : List Domain × List String) sp =>
      let mc := matchClusters sp fcs acc.2
      (acc.1 ++
        [{ name := sp.name,
           type := (lookupA FRAMEWORK_DOMAIN_TYPE
             (sp.framework.getD "")).getD "shared",
           sub_projects := [sp.name],
           clusters := mc.1,
           infra_paths := [],
           estimated_features :=
             if mc.1 ≠ [] then mc.1.length
             else max 1 ((sp.file_count.getD 3) / 3) }],
       mc.2))
    ([], [])

/-- Step 2: infrastructure domain when ≥ 3 patterns or any IaC pattern. -/
def infraDomain (ip : List InfraPattern) : List Domain :=
  if 3 ≤ ip.length ∨ (ip.filter (fun p => p.type = "iac")) ≠ [] then
    [{ name := "infrastructure", type := "infrastructure",
       sub_projects := [], clusters := [],
       infra_paths := ip.map (fun p => p.path),
       estimated_features := max 1 ip.length }]
  else []

/-- Append a cluster to the first domain of the given type, if any. -/
def addToFirst (doms : List Domain) (ty : String) (cname : String) :
    Option (List Domain) :=
  match doms with
  | [] => none
  | d :: ds =>
    if d.type = ty then
      some ({ d with
        clusters := d.clusters ++ [cname]
        estimated_features := d.estimated_features + 1 } :: ds)
    else
      match addToFirst ds ty cname with
      | none => none
      | some ds2 => some (d :: ds2)

/-- Step 3 body: try the frontend, backend, then mobile tier; a cluster
that fits nowhere is added to the claimed-set (which step 3b then treats
as already handled). -/
def assignOrphan (acc : List Domain × List String) (c : FeatureCluster) :
    List Domain × List String :=
  match (if c.frontend ≠ [] then addToFirst acc.1 "frontend" c.name
         else none) with
  | some ds => (ds, acc.2)
  | none =>
    match (if c.backend ≠ [] then addToFirst acc.1 "backend" c.name
           else none) with
    | some ds => (ds, acc.2)
    | none =>
      match (if c.mobile ≠ [] then addToFirst acc.1 "mobile" c.name
             else none) with
      | some ds => (ds, acc.2)
      | none => (acc.1, acc.2 ++ [c.name])

/-- The root-synthesized domain of step 4 (single-project repositories).
The filesystem-derived inputs (directory name, parsed-and-truthy
`package.json` name, detected root framework) are explicit fields. -/
structure RootInfo where
  name : String
  pkgName : Option String
  framework : Option String
deriving DecidableEq, Repr

/-- `pkg["name"].split("/")[-1]` (strip a leading `@scope/`). -/
def lastSlashComponent (s : String) : String :=
  String.mk (lastD (splitOnSlash s.data) s.data)

def rootDomainName (root : RootInfo) : String :=
  match root.pkgName with
  | some n => if n = "" then root.name else lastSlashComponent n
  | none => root.name

def rootDomain (root : RootInfo) (fcs : List FeatureCluster)
    (ip : List InfraPattern) : Domain :=
  { name := rootDomainName root,
    type := (lookupA FRAMEWORK_DOMAIN_TYPE
      (root.framework.getD "")).getD "shared",
    sub_projects := [],
    clusters := fcs.map (fun c => c.name),
    infra_paths := if ip ≠ [] then ip.map (fun p => p.path) else [],
    estimated_features :=
      max (fcs.map (fun c => c.name)).length fcs.length }

/-- `detect_domains(root, sub_projects, feature_clusters, architecture,
infra_patterns)`.  The `architecture` argument is never read by the
source body and is omitted. -/
def detect_domains (root : RootInfo) (sub_projects : List SubProject)
    (feature_clusters : List FeatureCluster)
    (infra_patterns : List InfraPattern) : List Domain :=
  let s1 := subProjectDomains sub_projects feature_clusters
  let domains2 := s1.1 ++ infraDomain infra_patterns
  let orphans := feature_clusters.filter (fun c => decide (c.name ∉ s1.2))
  let s3 :=
    if orphans ≠ [] ∧ domains2 ≠ [] then
      orphans.foldl assignOrphan (domains2, s1.2)
    else (domains2, s1.2)
  let stillOrphan :=
    (feature_clusters.filter (fun c =>
      decide (c.name ∉ s3.2) &&
        !(s3.1.any (fun d => decide (c.name ∈ d.clusters))))).map
      (fun c => c.name)
  let domains4 := s3.1 ++
    (if stillOrphan ≠ [] then
      [{ name := "uncategorized", type := "uncategorized",
         sub_projects := [], clusters := stillOrphan, infra_paths := [],
         estimated_features := stillOrphan.length }]
     else [])
  if sub_projects = [] ∧ domains4 = [] then
    domains4 ++ [rootDomain root feature_clusters infra_patterns]
  else domains4

/-! ## Root-language backfill (`generate_report`, sub-project fallback) -/

/-- The multiset of truthy sub-project languages (the population of the
set comprehension `\x7bsp["language"] for sp in sub_projects if
sp["language"]\x7d`). -/
def spLanguages (sps : List SubProject) : List String :=
  sps.filterMap (fun sp =>
    match sp.language with
    | some l => if l ≠ "" then some l else none
    | none => none)

/-- `enum` enumerates the set built from `population`: no duplicates and
the same membership.  CPython iterates a `set` of strings in an order
depending on the per-process hash seed; the source pins nothing more
than this predicate. -/
def IsSetEnum (enum population : List String) : Prop :=
  enum.Nodup ∧ ∀ s, s ∈ enum ↔ s ∈ population

/-- The backfill block of `generate_report`: when the root has no
language and sub-projects exist, `langs = list(\x7b...\x7d)` and the first
element of that enumeration is taken (medium confidence when the set is
a singleton, low otherwise).  Returns the resulting language and the
confidence label it records, if any. -/
def backfillLanguage (lang0 : Option String) (sps : List SubProject)
    (enum : List String) : Option String × Option String :=
  if (lang0 = none ∨ lang0 = some "") ∧ sps ≠ [] then
    if enum.length = 1 then (enum.head?, some "medium")
    else if enum ≠ [] then (enum.head?, some "low")
    else (lang0, none)
  else (lang0, none)

/-! ## Bounded file census (`count_source_files`) -/

/-! A directory tree: name, plain files, subdirectories — mutual with a
forest type so that all recursions stay structural. -/
mutual
inductive FsTree where
  | node (dirname : String) (files : List String) (subdirs : FsForest)
inductive FsForest where
  | nil
  | cons (t : FsTree) (ts : FsForest)
end

def dirName : FsTree → String
  | .node n _ _ => n

/-- `Path(f).suffix`: the last dot-extension of a file name (empty for
dotfiles and trailing dots, as in `pathlib`). -/
def rfindDotAux : List Char → Nat → Option Nat → Option Nat
  | [], _, acc => acc
  | c :: rest, i, acc =>
    rfindDotAux rest (i + 1) (if c = '.' then some i else acc)

def pySuffix (name : String) : String :=
  match rfindDotAux name.data 0 none with
  | some i =>
    if 0 < i ∧ i < name.data.length - 1 then String.mk (name.data.drop i)
    else ""
  | none => ""

/-- `Path(f).suffix.lower()`. -/
def suffixLower (name : String) : String :=
  String.mk ((pySuffix name).data.map pyLower)

/-- `counts[ext] = counts.get(ext, 0) + 1` on the insertion-ordered dict. -/
def bumpCount : List (String × Nat) → String → List (String × Nat)
  | [], ext => [(ext, 1)]
  | e :: es, ext =>
    if e.1 = ext then (e.1, e.2 + 1) :: es else e :: bumpCount es ext

/-- The running census: the counts dict and the `total` counter. -/
structure Census where
  counts : List (String × Nat)
  total : Nat
deriving DecidableEq, Repr

def sumCounts (l : List (String × Nat)) : Nat := (l.map Prod.snd).sum

/-- The per-directory file loop; `Sum.inl` is the early `return counts`
once `total >= MAX_FILES_SCAN`. -/
def countFilesStep : List String → Census → Census ⊕ Census
  | [], st => Sum.inr st
  | f :: fs, st =>
    if suffixLower f ∈ SOURCE_EXTENSIONS then
      if MAX_FILES_SCAN ≤ st.total + 1 then
        Sum.inl ⟨bumpCount st.counts (suffixLower f), st.total + 1⟩
      else countFilesStep fs ⟨bumpCount st.counts (suffixLower f), st.total + 1⟩
    else countFilesStep fs st

/-- Whether a directory name is pruned from `dirnames`.  A pruned child
is exactly one that the visit-time `should_exclude` test would skip, so
the walk below visits every child and lets that test skip it: the census
is identical, only traversal cost differs. -/
def excludedDirName (d : String) : Bool :=
  decide (d ∈ EXCLUDE_DIRS) || pyStartsWith d "."

/-! `os.walk` visit of one directory: the exclusion/depth test skips the
whole subtree (cleared `dirnames`), then files are counted (with early
return at the limit), then children are visited depth-first. -/
mutual
def walkDir (parts : List String) (st : Census) : FsTree → Census ⊕ Census
  | .node _ files subdirs =>
    if should_exclude parts || decide (MAX_DEPTH < parts.length) then
      Sum.inr st
    else
      match countFilesStep files st with
      | Sum.inl c => Sum.inl c
      | Sum.inr st2 => walkDirs parts st2 subdirs
def walkDirs (parts : List String) (st : Census) :
    FsForest → Census ⊕ Census
  | .nil => Sum.inr st
  | .cons t ts =>
    match walkDir (parts ++ [dirName t]) st t with
    | Sum.inl c => Sum.inl c
    | Sum.inr st2 => walkDirs parts st2 ts
end

def resCensus : Census ⊕ Census → Census
  | Sum.inl c => c
  | Sum.inr c => c

/-- `count_source_files(root)`: the returned counts dict. -/
def count_source_files (t : FsTree) : List (String × Nat) :=
  (resCensus (walkDir [] ⟨[], 0⟩ t)).counts

/-- Number of recognized source files in one directory's file list. -/
def recogLen (files : List String) : Nat :=
  (files.filter (fun f => decide (suffixLower f ∈ SOURCE_EXTENSIONS))).length

/-! Reference census size for the same traversal without the
`MAX_FILES_SCAN` cap: how many recognized source files the walk would
visit.  This is the spec-side quantity the capped walk is compared
against. -/
mutual
def recognizedCount (parts : List String) : FsTree → Nat
  | .node _ files subdirs =>
    if should_exclude parts || decide (MAX_DEPTH < parts.length) then 0
    else recogLen files + recognizedForest parts subdirs
def recognizedForest (parts : List String) : FsForest → Nat
  | .nil => 0
  | .cons t ts =>
    recognizedCount (parts ++ [dirName t]) t + recognizedForest parts ts
end

/-! ## Concrete instances used by the example theorems -/

def c4ui : List UiComponent := [⟨"Checkout", "src/pages/Checkout", 3⟩]

def c4sf : List ServerlessFunction :=
  [⟨"checkoutApi", "http", none, [], "user-facing", "api/checkoutApi"⟩]

def c4entry : String × (ClusterData × List String) :=
  ("checkout",
   (⟨["src/pages/Checkout/"], ["api/checkoutApi"], [], "user-facing"⟩,
    ["checkout", "checkoutapi"]))

def c5c : FeatureCluster :=
  ⟨"checkout", ["src/pages/Checkout/"], ["api/checkoutApi"], [], false,
   "user-facing", "medium"⟩

def c6fs : ServerlessFs :=
  { azureFiles :=
      [⟨["goodOne", "function.json"], "goodOne", "goodOne",
        some [⟨"httpTrigger", some "in", some "one", ["get"]⟩]⟩,
       ⟨["broken", "function.json"], "broken", "broken", none⟩,
       ⟨["goodTwo", "function.json"], "goodTwo", "goodTwo",
        some [⟨"timerTrigger", some "in", none, []⟩]⟩],
    rootFiles := ["README.md", "host.json"],
    apiDir := none }

def c1sp : SubProject := ⟨"web", "web/", some "Go", none, false, none⟩

def c1cluster : FeatureCluster :=
  ⟨"abcd", ["other/x/"], [], [], false, "user-facing", "low"⟩

def c1root : RootInfo := ⟨"myroot", none, none⟩

def c2cluster : FeatureCluster :=
  ⟨"abcd", ["x/"], [], [], false, "user-facing", "low"⟩

def c2root : RootInfo := ⟨"myproj", none, none⟩

def c2rootW : RootInfo := ⟨"myproj", some "@scope/pkg", some "React"⟩

def c7subs : List SubProject :=
  [⟨"a", "a/", some "Go", none, false, none⟩,
   ⟨"b", "b/", some "Rust", none, false, none⟩]

def c9item : Item := ⟨"abcdzz", Tier.backend, "fn/abcdzz", "user-facing"⟩

def c9st1 : List (String × ClusterData) :=
  [("abcd", ⟨["p1/"], [], [], "user-facing"⟩),
   ("wxyz", ⟨[], ["p2"], [], "user-facing"⟩)]

def c9st2 : List (String × ClusterData) :=
  [("wxyz", ⟨[], ["p2"], [], "user-facing"⟩),
   ("abcd", ⟨["p1/"], [], [], "user-facing"⟩)]

/-! ## Theorems -/
/-! ## Name normalization (`_camel_case_split`, `_normalize_name`) -/

/-! ### Facts about normalization -/

theorem char_toNat_ofNat {n : Nat} (h : n < 55296) :
    (Char.ofNat n).toNat = n := by
  unfold Char.ofNat
  rw [dif_pos (Or.inl h)]
  unfold Char.ofNatAux Char.toNat
  rfl

theorem splitSpaces_ne_nil (l : List Char) : splitSpaces l ≠ [] := by
  induction l with
  | nil => simp [splitSpaces]
  | cons c rest ih =>
    simp only [splitSpaces]
    by_cases hc : c = ' '
    · simp [hc]
    · rw [if_neg hc]
      rcases h : splitSpaces rest with _ | ⟨t, ts⟩ <;> simp

theorem flatten_filter_ne_nil (ls : List (List Char)) :
    (ls.filter (fun t => !t.isEmpty)).flatten = ls.flatten := by
  induction ls with
  | nil => rfl
  | cons t ts ih =>
    rcases t with _ | ⟨c, cs⟩
    · rw [List.filter_cons_of_neg (by simp), List.flatten_cons,
        List.nil_append, ih]
    · rw [List.filter_cons_of_pos (by simp), List.flatten_cons,
        List.flatten_cons, ih]

theorem splitSpaces_flatten (l : List Char) :
    (splitSpaces l).flatten = l.filter (fun c => !decide (c = ' ')) := by
  induction l with
  | nil => simp [splitSpaces]
  | cons c rest ih =>
    simp only [splitSpaces]
    by_cases hc : c = ' '
    · rw [if_pos hc]
      simp only [List.flatten_cons, List.nil_append, ih]
      simp [List.filter, hc]
    · rw [if_neg hc]
      rcases h : splitSpaces rest with _ | ⟨t, ts⟩
      · exact absurd h (splitSpaces_ne_nil rest)
      · have hj := ih; rw [h] at hj
        simp only [List.flatten_cons] at hj ⊢
        simp only [List.filter, hc, decide_eq_true_eq]
        simp only [if_neg hc] at *
        rw [List.cons_append, ← hj]
        simp [List.filter, hc]

theorem camelCaseSplitL_flatten (l : List Char) :
    (camelCaseSplitL l).flatten
      = ((punctToSpace (camelSplitSpace l)).filter
          (fun c => !decide (c = ' '))).map pyLower := by
  unfold camelCaseSplitL
  rw [← List.map_flatten, flatten_filter_ne_nil, splitSpaces_flatten]

theorem punctToSpace_mem (l : List Char) (c : Char)
    (hc : c ∈ punctToSpace l) : isAlnumA c = true ∨ c = ' ' := by
  unfold punctToSpace at hc
  rcases List.mem_map.mp hc with ⟨d, _, hd⟩
  by_cases h : isAlnumA d = true
  · left; rw [← hd]; simp [h]
  · right; rw [← hd]; simp [h]

theorem pyLower_lowerDigit {c : Char}
    (h : isLowerA c = true ∨ isDigitA c = true) : pyLower c = c := by
  have hu : isUpperA c = false := by
    simp only [isLowerA, isDigitA, Bool.and_eq_true, decide_eq_true_eq] at h
    simp only [isUpperA, Bool.and_eq_false_iff, decide_eq_false_iff_not, not_le]
    omega
  simp [pyLower, hu]

theorem pyLower_alnum {c : Char} (h : isAlnumA c = true) :
    isLowerA (pyLower c) = true ∨ isDigitA (pyLower c) = true := by
  unfold isAlnumA at h
  simp only [Bool.or_eq_true] at h
  rcases h with (h | h) | h
  · left; rw [pyLower_lowerDigit (Or.inl h)]; exact h
  · left
    simp only [isUpperA, Bool.and_eq_true, decide_eq_true_eq] at h
    have hv : c.toNat + 32 < 55296 := by omega
    unfold pyLower
    rw [if_pos]
    · simp only [isLowerA, char_toNat_ofNat hv, Bool.and_eq_true,
        decide_eq_true_eq]
      omega
    · simp only [isUpperA, Bool.and_eq_true, decide_eq_true_eq]
      omega
  · right; rw [pyLower_lowerDigit (Or.inr h)]; exact h

/-- Every character of a normalized name is an ASCII lower-case letter or
digit. -/
theorem normalizeName_chars (s : String) (c : Char)
    (hc : c ∈ (normalizeName s).data) :
    isLowerA c = true ∨ isDigitA c = true := by
  unfold normalizeName at hc
  rw [camelCaseSplitL_flatten] at hc
  simp only [List.mem_map] at hc
  rcases hc with ⟨d, hd, rfl⟩
  have hd2 := List.mem_filter.mp hd
  have hmem := punctToSpace_mem _ _ hd2.1
  rcases hmem with h | h
  · exact pyLower_alnum h
  · exfalso
    have hne := hd2.2
    simp [h] at hne

/-- On a string of lower-case letters and digits, the camel-split stage is
the identity. -/
theorem camelSplitSpace_id (l : List Char)
    (h : ∀ c ∈ l, isLowerA c = true ∨ isDigitA c = true) :
    camelSplitSpace l = l := by
  induction l with
  | nil => rfl
  | cons c1 rest ih =>
    cases rest with
    | nil => rfl
    | cons c2 rest2 =>
      have h2 : isUpperA c2 = false := by
        have hx := h c2 (by simp)
        simp only [isLowerA, isDigitA, Bool.and_eq_true,
          decide_eq_true_eq] at hx
        simp only [isUpperA, Bool.and_eq_false_iff,
          decide_eq_false_iff_not, not_le]
        omega
      have ih2 := ih (fun c hc => h c (List.mem_cons_of_mem _ hc))
      simp [camelSplitSpace, h2, ih2]

theorem normalizeName_id_of_lowerDigit (l : List Char)
    (h : ∀ c ∈ l, isLowerA c = true ∨ isDigitA c = true) :
    (camelCaseSplitL l).flatten = l := by
  rw [camelCaseSplitL_flatten, camelSplitSpace_id l h]
  have hp : punctToSpace l = l := by
    unfold punctToSpace
    conv_rhs => rw [← List.map_id l]
    apply List.map_congr_left
    intro c hc
    have ha : isAlnumA c = true := by
      rcases h c hc with hx | hx <;> simp [isAlnumA, hx]
    simp [ha]
  rw [hp]
  have hf : l.filter (fun c => !decide (c = ' ')) = l := by
    apply List.filter_eq_self.mpr
    intro c hc
    have hx := h c hc
    simp only [isLowerA, isDigitA, Bool.and_eq_true, decide_eq_true_eq] at hx
    simp only [Bool.not_eq_eq_eq_not, Bool.not_true, decide_eq_false_iff_not]
    intro he
    subst he
    have h32 : (' ' : Char).toNat = 32 := rfl
    omega
  rw [hf]
  conv_rhs => rw [← List.map_id l]
  apply List.map_congr_left
  intro c hc
  exact pyLower_lowerDigit (h c hc)

/-- Claim C3: name normalization is idempotent — for every string s,
normalizing twice yields the same string as normalizing once. -/
theorem normalizeName_idempotent (s : String) :
    normalizeName (normalizeName s) = normalizeName s := by
  unfold normalizeName
  congr 1
  apply normalizeName_id_of_lowerDigit
  intro c hc
  exact normalizeName_chars s c hc

/-! ## Feature clustering (`cluster_features`)

The Python `clusters_map` dict is modelled as an association list in
insertion order: assignment to a present key replaces the value in place,
assignment to a fresh key appends at the end, `pop` removes the entry —
exactly CPython's insertion-ordered dict semantics. -/

/-! ### Common-prefix arithmetic -/

theorem commonPrefixLen_comm (a b : List Char) :
    commonPrefixLen a b = commonPrefixLen b a := by
  induction a generalizing b with
  | nil => cases b <;> rfl
  | cons x xs ih =>
    cases b with
    | nil => rfl
    | cons y ys =>
      by_cases h : x = y
      · subst h; simp [commonPrefixLen, ih]
      · have h2 : ¬(y = x) := fun hy => h hy.symm
        simp [commonPrefixLen, h, h2]

theorem commonPrefixLen_le_left (a b : List Char) :
    commonPrefixLen a b ≤ a.length := by
  induction a generalizing b with
  | nil => cases b <;> simp [commonPrefixLen]
  | cons x xs ih =>
    cases b with
    | nil => simp [commonPrefixLen]
    | cons y ys =>
      by_cases h : x = y
      · subst h
        simp only [commonPrefixLen, if_pos rfl, List.length_cons]
        exact Nat.succ_le_succ (ih ys)
      · simp [commonPrefixLen, h]

theorem commonPrefixLen_le_right (a b : List Char) :
    commonPrefixLen a b ≤ b.length := by
  rw [commonPrefixLen_comm]; exact commonPrefixLen_le_left b a

theorem commonPrefixLen_self (a : List Char) :
    commonPrefixLen a a = a.length := by
  induction a with
  | nil => rfl
  | cons x xs ih => simp [commonPrefixLen, ih]

theorem take_commonPrefixLen_eq (a b : List Char) :
    a.take (commonPrefixLen a b) = b.take (commonPrefixLen a b) := by
  induction a generalizing b with
  | nil => cases b <;> rfl
  | cons x xs ih =>
    cases b with
    | nil => rfl
    | cons y ys =>
      by_cases h : x = y
      · subst h; simp [commonPrefixLen, ih]
      · simp [commonPrefixLen, h]

/-- The common-prefix length is ultrametric:
`min (cpl a c) (cpl c b) ≤ cpl a b`. -/
theorem commonPrefixLen_min_le (a b c : List Char) :
    min (commonPrefixLen a c) (commonPrefixLen c b)
      ≤ commonPrefixLen a b := by
  induction a generalizing b c with
  | nil => simp [commonPrefixLen]
  | cons x xs ih =>
    cases b with
    | nil => cases c <;> simp [commonPrefixLen]
    | cons y ys =>
      cases c with
      | nil => simp [commonPrefixLen]
      | cons z zs =>
        by_cases hxz : x = z
        · by_cases hzy : z = y
          · subst hxz; subst hzy
            simp only [commonPrefixLen, eq_self_iff_true, if_true]
            have := ih ys zs
            omega
          · have h0 : commonPrefixLen (z :: zs) (y :: ys) = 0 := by
              simp [commonPrefixLen, hzy]
            rw [h0]
            simp
        · have h0 : commonPrefixLen (x :: xs) (z :: zs) = 0 := by
            simp [commonPrefixLen, hxz]
          rw [h0]
          simp

/-- A prefix can only share less with a third string than its extension
does. -/
theorem commonPrefixLen_le_of_pre (u v w : List Char) (h : u <+: v) :
    commonPrefixLen u w ≤ commonPrefixLen v w := by
  rcases h with ⟨t, rfl⟩
  induction u generalizing w with
  | nil => simp [commonPrefixLen]
  | cons x xs ih =>
    cases w with
    | nil => simp [commonPrefixLen]
    | cons y ys =>
      by_cases hxy : x = y
      · subst hxy
        simp only [List.cons_append, commonPrefixLen, if_pos rfl]
        exact Nat.succ_le_succ (ih ys)
      · simp [commonPrefixLen, hxy]

theorem commonPrefixLen_of_pre (u a : List Char) (h : u <+: a) :
    commonPrefixLen u a = u.length := by
  rcases h with ⟨t, rfl⟩
  induction u with
  | nil => cases t <;> simp [commonPrefixLen]
  | cons x xs ih => simp [commonPrefixLen, ih]

/-- Two extensions of a common stem share at least the stem. -/
theorem le_commonPrefixLen_of_pre (u a b : List Char)
    (ha : u <+: a) (hb : u <+: b) :
    u.length ≤ commonPrefixLen a b := by
  have h1 : commonPrefixLen a u = u.length := by
    rw [commonPrefixLen_comm]; exact commonPrefixLen_of_pre u a ha
  have h2 : commonPrefixLen u b = u.length := commonPrefixLen_of_pre u b hb
  have := commonPrefixLen_min_le a b u
  omega

/-- `l.take n` is a prefix of `l`. -/
theorem take_isPre (n : Nat) (l : List Char) : l.take n <+: l :=
  ⟨l.drop n, List.take_append_drop n l⟩

/-- `n ≤ cpl a b` gives `a.take n <+: b`. -/
theorem take_pre_of_le_commonPrefixLen (a b : List Char) (n : Nat)
    (h : n ≤ commonPrefixLen a b) : a.take n <+: b := by
  have h1 : a.take n = (a.take (commonPrefixLen a b)).take n := by
    rw [List.take_take, Nat.min_eq_left h]
  rw [h1, take_commonPrefixLen_eq, List.take_take,
    Nat.min_eq_left h]
  exact take_isPre n _

/-! ### `findBest` characterization -/

theorem findBestAux_some (norm : String) (acc : Option String × Nat)
    (ks : List String) (k : String) (p : Nat)
    (h : findBestAux norm acc ks = (some k, p)) :
    acc = (some k, p) ∨ (k ∈ ks ∧ p = prefLen norm k ∧ 4 ≤ p) := by
  induction ks generalizing acc with
  | nil => left; exact h
  | cons k0 ks ih =>
    simp only [findBestAux] at h
    by_cases hc : 4 ≤ prefLen norm k0 ∧ acc.2 < prefLen norm k0
    · rw [if_pos hc] at h
      rcases ih _ h with h2 | h2
      · simp only [Prod.mk.injEq, Option.some.injEq] at h2
        obtain ⟨rfl, rfl⟩ := h2
        exact Or.inr ⟨List.mem_cons_self _ _, rfl, hc.1⟩
      · exact Or.inr ⟨List.mem_cons_of_mem _ h2.1, h2.2⟩
    · rw [if_neg hc] at h
      rcases ih _ h with h2 | h2
      · exact Or.inl h2
      · exact Or.inr ⟨List.mem_cons_of_mem _ h2.1, h2.2⟩

theorem findBest_some (norm : String) (keys : List String) (k : String)
    (p : Nat) (h : findBest norm keys = (some k, p)) :
    k ∈ keys ∧ p = prefLen norm k ∧ 4 ≤ p := by
  rcases findBestAux_some norm (none, 0) keys k p h with h2 | h2
  · exact absurd h2 (by simp)
  · exact h2

theorem findBestAux_stable (norm : String) (acc : Option String × Nat)
    (ks : List String) (h : ∀ k ∈ ks, prefLen norm k < 4) :
    findBestAux norm acc ks = acc := by
  induction ks generalizing acc with
  | nil => rfl
  | cons k0 ks ih =>
    have h0 := h k0 (List.mem_cons_self _ _)
    simp only [findBestAux]
    rw [if_neg (by omega)]
    exact ih _ (fun k hk => h k (List.mem_cons_of_mem _ hk))

theorem findBest_none_of_all (norm : String) (keys : List String)
    (h : ∀ k ∈ keys, prefLen norm k < 4) :
    findBest norm keys = (none, 0) :=
  findBestAux_stable norm (none, 0) keys h

theorem findBestAux_isSome (norm : String) (acc : Option String × Nat)
    (ks : List String) (h : acc.1.isSome) :
    (findBestAux norm acc ks).1.isSome := by
  induction ks generalizing acc with
  | nil => exact h
  | cons k0 ks ih =>
    simp only [findBestAux]
    by_cases hc : 4 ≤ prefLen norm k0 ∧ acc.2 < prefLen norm k0
    · rw [if_pos hc]; exact ih _ (by simp)
    · rw [if_neg hc]; exact ih _ h

theorem findBest_none (norm : String) (keys : List String) (p : Nat)
    (h : findBest norm keys = (none, p)) :
    ∀ k ∈ keys, prefLen norm k < 4 := by
  unfold findBest at h
  induction keys with
  | nil => simp
  | cons k0 ks ih =>
    simp only [findBestAux] at h
    by_cases hc : 4 ≤ prefLen norm k0 ∧
        ((none : Option String), (0 : Nat)).2 < prefLen norm k0
    · rw [if_pos hc] at h
      have hs := findBestAux_isSome norm (some k0, prefLen norm k0) ks
        (by simp)
      rw [h] at hs
      simp at hs
    · rw [if_neg hc] at h
      intro k hk
      rcases List.mem_cons.mp hk with rfl | hk2
      · simp only [not_and_or, not_le, not_lt] at hc
        omega
      · exact ih h k hk2

/-- With pairwise-separated keys, at most one key can share a prefix of
length ≥ 4 with the incoming name, so the greedy scan is independent of
the iteration order: it returns that unique key. -/
theorem findBest_eq_of_unique (norm : String) (keys : List String)
    (k0 : String) (hnd : keys.Nodup) (hk0 : k0 ∈ keys)
    (hq : 4 ≤ prefLen norm k0)
    (hrest : ∀ k ∈ keys, k ≠ k0 → prefLen norm k < 4) :
    findBest norm keys = (some k0, prefLen norm k0) := by
  unfold findBest
  induction keys with
  | nil => cases hk0
  | cons k1 ks ih =>
    rcases List.mem_cons.mp hk0 with rfl | hmem
    · simp only [findBestAux]
      rw [if_pos ⟨hq, by omega⟩]
      apply findBestAux_stable
      intro k hk
      have hne : k ≠ k0 := by
        intro he
        subst he
        exact (List.nodup_cons.mp hnd).1 hk
      exact hrest k (List.mem_cons_of_mem _ hk) hne
    · have hne1 : k1 ≠ k0 := by
        intro he
        subst he
        exact (List.nodup_cons.mp hnd).1 hmem
      have hlt := hrest k1 (List.mem_cons_self _ _) hne1
      simp only [findBestAux]
      rw [if_neg (by omega)]
      exact ih (List.nodup_cons.mp hnd).2 hmem
        (fun k hk hne => hrest k (List.mem_cons_of_mem _ hk) hne)

/-! ### Association-list dictionary lemmas -/

theorem mem_setA {α : Type} (l : List (String × α)) (k : String) (v : α)
    (e : String × α) (he : e ∈ setA l k v) : e = (k, v) ∨ e ∈ l := by
  induction l with
  | nil => simpa [setA] using he
  | cons e0 es ih =>
    simp only [setA] at he
    by_cases h0 : e0.1 = k
    · rw [if_pos h0] at he
      rcases List.mem_cons.mp he with rfl | h2
      · exact Or.inl rfl
      · exact Or.inr (List.mem_cons_of_mem _ h2)
    · rw [if_neg h0] at he
      rcases List.mem_cons.mp he with rfl | h2
      · exact Or.inr (List.mem_cons_self _ _)
      · rcases ih h2 with h3 | h3
        · exact Or.inl h3
        · exact Or.inr (List.mem_cons_of_mem _ h3)

theorem setA_keys_of_mem {α : Type} (l : List (String × α)) (k : String)
    (v : α) (hk : k ∈ l.map Prod.fst) :
    (setA l k v).map Prod.fst = l.map Prod.fst := by
  induction l with
  | nil => cases hk
  | cons e0 es ih =>
    simp only [setA]
    by_cases h0 : e0.1 = k
    · rw [if_pos h0]
      simp [h0]
    · rw [if_neg h0]
      simp only [List.map_cons, List.cons.injEq, true_and]
      apply ih
      rw [List.map_cons] at hk
      rcases List.mem_cons.mp hk with h1 | h1
      · exact absurd h1.symm h0
      · exact h1

theorem setA_of_not_mem {α : Type} (l : List (String × α)) (k : String)
    (v : α) (hk : k ∉ l.map Prod.fst) : setA l k v = l ++ [(k, v)] := by
  induction l with
  | nil => rfl
  | cons e0 es ih =>
    simp only [setA]
    have h0 : ¬(e0.1 = k) := by
      intro he
      exact hk (by simp [he])
    rw [if_neg h0, ih (by intro h2; exact hk (by simp [h2]))]
    rfl

theorem lookupA_setA_self {α : Type} (l : List (String × α)) (k : String)
    (v : α) : lookupA (setA l k v) k = some v := by
  induction l with
  | nil => simp [setA, lookupA]
  | cons e0 es ih =>
    simp only [setA]
    by_cases h0 : e0.1 = k
    · rw [if_pos h0]; simp [lookupA]
    · rw [if_neg h0]; simp [lookupA, h0, ih]

theorem eraseA_sublist {α : Type} (l : List (String × α)) (k : String) :
    List.Sublist (eraseA l k) l := by
  induction l with
  | nil => simp [eraseA]
  | cons e0 es ih =>
    simp only [eraseA]
    by_cases h0 : e0.1 = k
    · rw [if_pos h0]; exact List.sublist_cons_self _ _
    · rw [if_neg h0]; exact List.Sublist.cons₂ _ ih

theorem lookupA_mem {α : Type} (l : List (String × α)) (k : String)
    (v : α) (h : lookupA l k = some v) : (k, v) ∈ l := by
  induction l with
  | nil => simp [lookupA] at h
  | cons e0 es ih =>
    simp only [lookupA] at h
    by_cases h0 : e0.1 = k
    · rw [if_pos h0] at h
      have hv : e0.2 = v := by injection h
      have he : e0 = (k, v) := by
        obtain ⟨k0, v0⟩ := e0
        simp_all
      exact he ▸ List.mem_cons_self _ _
    · rw [if_neg h0] at h
      exact List.mem_cons_of_mem _ (ih h)

theorem lookupA_eq_none {α : Type} (l : List (String × α)) (k : String)
    (hk : k ∉ l.map Prod.fst) : lookupA l k = none := by
  induction l with
  | nil => rfl
  | cons e0 es ih =>
    simp only [lookupA]
    have h0 : ¬(e0.1 = k) := fun he => hk (by simp [he])
    rw [if_neg h0]
    exact ih (fun h2 => hk (by simp; right; simpa using h2))

theorem lookupA_isSome_of_mem {α : Type} (l : List (String × α))
    (k : String) (hk : k ∈ l.map Prod.fst) : ∃ v, lookupA l k = some v := by
  induction l with
  | nil => cases hk
  | cons e0 es ih =>
    simp only [lookupA]
    by_cases h0 : e0.1 = k
    · exact ⟨e0.2, by rw [if_pos h0]⟩
    · rw [if_neg h0]
      apply ih
      rw [List.map_cons] at hk
      rcases List.mem_cons.mp hk with h1 | h1
      · exact absurd h1.symm h0
      · exact h1

/-- With unique keys, lookup is determined by entry membership. -/
theorem lookupA_eq_some_iff {α : Type} (l : List (String × α))
    (hnd : (l.map Prod.fst).Nodup) (k : String) (v : α) :
    lookupA l k = some v ↔ (k, v) ∈ l := by
  constructor
  · exact lookupA_mem l k v
  · intro hm
    induction l with
    | nil => cases hm
    | cons e0 es ih =>
      simp only [lookupA]
      rcases List.mem_cons.mp hm with rfl | h2
      · simp
      · by_cases h0 : e0.1 = k
        · exfalso
          have : k ∈ es.map Prod.fst := List.mem_map.mpr ⟨(k, v), h2, rfl⟩
          rw [← h0] at this
          exact (List.nodup_cons.mp (by simpa using hnd)).1 this
        · rw [if_neg h0]
          exact ih (List.nodup_cons.mp (by simpa using hnd)).2 h2

/-- Removing a present key from a nodup-key map: the map is a permutation
of the removed entry consed onto the remainder. -/
theorem perm_cons_eraseA {α : Type} (l : List (String × α)) (k : String)
    (v : α) (hnd : (l.map Prod.fst).Nodup) (hm : (k, v) ∈ l) :
    l.Perm ((k, v) :: eraseA l k) := by
  induction l with
  | nil => cases hm
  | cons e0 es ih =>
    rcases List.mem_cons.mp hm with rfl | h2
    · simp [eraseA]
    · simp only [eraseA]
      by_cases h0 : e0.1 = k
      · exfalso
        have hkes : k ∈ es.map Prod.fst := List.mem_map.mpr ⟨(k, v), h2, rfl⟩
        rw [← h0] at hkes
        exact (List.nodup_cons.mp (by simpa using hnd)).1 hkes
      · rw [if_neg h0]
        have ihp := ih (List.nodup_cons.mp (by simpa using hnd)).2 h2
        exact (List.Perm.cons e0 ihp).trans (List.Perm.swap _ _ _)

/-! ### The map invariant of the greedy loop -/

theorem prefLen_symm_lt : ∀ {k1 k2 : String},
    prefLen k1 k2 < 4 → prefLen k2 k1 < 4 := by
  intro k1 k2 h
  unfold prefLen at *
  rw [commonPrefixLen_comm]
  exact h

/-- Under the separation invariant, the best key returned by the greedy
scan is the only key sharing ≥ 4 leading characters with the name. -/
theorem best_unique (keys : List String) (n bk : String) (bp : Nat)
    (hsep : keys.Pairwise (fun k1 k2 => prefLen k1 k2 < 4))
    (hbk : bk ∈ keys) (hbp : bp = prefLen n bk) (h4 : 4 ≤ bp) :
    ∀ k ∈ keys, k ≠ bk → prefLen n k < 4 := by
  intro k hk hne
  by_contra hge
  push_neg at hge
  have hpair : prefLen bk k < 4 := by
    have hforall := List.Pairwise.forall
      (fun {a b} (h : prefLen a b < 4) => prefLen_symm_lt h) hsep
    exact hforall hbk hk (fun he => hne (he.symm))
  have hmin := commonPrefixLen_min_le bk.data k.data n.data
  have h1 : commonPrefixLen bk.data n.data = bp := by
    rw [commonPrefixLen_comm]; exact hbp.symm
  unfold prefLen at *
  omega

/-- Facts about `common = norm[:best_plen]` in the merge branch. -/
theorem common_facts (n bk : String) (bp : Nat)
    (hbp : bp = prefLen n bk) (h4 : 4 ≤ bp) :
    (takePre bp n).data.length = bp ∧
    (takePre bp n).data <+: n.data ∧
    (takePre bp n).data <+: bk.data := by
  have hle : bp ≤ n.data.length := by
    have := commonPrefixLen_le_left n.data bk.data
    unfold prefLen at hbp
    omega
  refine ⟨?_, ?_, ?_⟩
  · show (n.data.take bp).length = bp
    rw [List.length_take]
    omega
  · exact take_isPre bp n.data
  · exact take_pre_of_le_commonPrefixLen n.data bk.data bp
      (by unfold prefLen at hbp; omega)

/-- In the merge branch the shortened key stays away (below the floor and
distinct) from every key other than the best one. -/
theorem common_away (keys : List String) (n bk : String) (bp : Nat)
    (hsep : keys.Pairwise (fun k1 k2 => prefLen k1 k2 < 4))
    (hbk : bk ∈ keys) (hbp : bp = prefLen n bk) (h4 : 4 ≤ bp) :
    ∀ k ∈ keys, k ≠ bk →
      prefLen (takePre bp n) k < 4 ∧ takePre bp n ≠ k := by
  intro k hk hne
  have huniq := best_unique keys n bk bp hsep hbk hbp h4 k hk hne
  obtain ⟨hclen, hpre_n, _⟩ := common_facts n bk bp hbp h4
  have hle : prefLen (takePre bp n) k ≤ prefLen n k :=
    commonPrefixLen_le_of_pre _ _ _ hpre_n
  refine ⟨by omega, ?_⟩
  intro he
  have hself : prefLen (takePre bp n) k = bp := by
    rw [he]
    unfold prefLen
    rw [commonPrefixLen_self, ← he, hclen]
  omega

/-- The re-keying step keeps the key invariant and leaves the shortened
key present in the map. -/
theorem mergeRekey_inv (cm : List (String × ClusterData)) (it : Item)
    (bk : String) (bp : Nat) (hinv : KeyInv cm)
    (hbk : bk ∈ cm.map Prod.fst) (hbp : bp = prefLen it.norm bk)
    (h4 : 4 ≤ bp) :
    KeyInv (mergeRekey cm it bk bp) ∧
      takePre bp it.norm ∈ (mergeRekey cm it bk bp).map Prod.fst := by
  have hsepk := hinv.sep
  unfold mergeRekey
  by_cases hceq : takePre bp it.norm = bk
  · rw [if_pos hceq]
    exact ⟨hinv, hceq ▸ hbk⟩
  · rw [if_neg hceq]
    obtain ⟨v0, hv0⟩ := lookupA_isSome_of_mem cm bk hbk
    have hperm : cm.Perm ((bk, v0) :: eraseA cm bk) :=
      perm_cons_eraseA cm bk v0 hinv.nodup (lookupA_mem _ _ _ hv0)
    have hkeysperm : (cm.map Prod.fst).Perm
        (bk :: (eraseA cm bk).map Prod.fst) := by
      simpa using hperm.map Prod.fst
    have hnd2 := hinv.nodup.perm hkeysperm
    have hsep2 := hsepk.perm hkeysperm
      (fun {x y} h => prefLen_symm_lt h)
    have hbknot := (List.nodup_cons.mp hnd2).1
    have hndtail := (List.nodup_cons.mp hnd2).2
    have hsetail := (List.pairwise_cons.mp hsep2).2
    have hmemkeys : ∀ k ∈ (eraseA cm bk).map Prod.fst,
        k ∈ cm.map Prod.fst ∧ k ≠ bk := by
      intro k hk
      refine ⟨?_, ?_⟩
      · exact ((eraseA_sublist cm bk).map Prod.fst).mem hk
      · intro he; subst he; exact hbknot hk
    have hcnot : takePre bp it.norm ∉ (eraseA cm bk).map Prod.fst := by
      intro hc
      obtain ⟨hk1, hk2⟩ := hmemkeys _ hc
      exact (common_away _ it.norm bk bp hsepk hbk hbp h4 _ hk1 hk2).2 rfl
    rw [setA_of_not_mem _ _ _ hcnot]
    constructor
    · constructor
      · rw [List.map_append, List.nodup_append]
        refine ⟨hndtail, List.nodup_singleton _, ?_⟩
        intro k hk hk2
        simp only [List.map_cons, List.map_nil, List.mem_singleton] at hk2
        subst hk2
        exact hcnot hk
      · rw [List.map_append, List.pairwise_append]
        refine ⟨hsetail, List.pairwise_singleton _ _, ?_⟩
        intro k hk b hb
        simp only [List.map_cons, List.map_nil, List.mem_singleton] at hb
        subst hb
        obtain ⟨hk1, hk2⟩ := hmemkeys _ hk
        exact prefLen_symm_lt
          (common_away _ it.norm bk bp hsepk hbk hbp h4 _ hk1 hk2).1
    · rw [List.map_append]
      simp

/-- The greedy insertion step preserves the key invariant. -/
theorem insertItem_KeyInv (cm : List (String × ClusterData)) (it : Item)
    (hinv : KeyInv cm) : KeyInv (insertItem cm it) := by
  unfold insertItem
  rcases hfb : findBest it.norm (cm.map Prod.fst) with ⟨ob, bp⟩
  cases ob with
  | none =>
    have hall := findBest_none _ _ _ hfb
    by_cases hmem : it.norm ∈ cm.map Prod.fst
    · exact ⟨by rw [setA_keys_of_mem _ _ _ hmem]; exact hinv.nodup,
        by rw [setA_keys_of_mem _ _ _ hmem]; exact hinv.sep⟩
    · rw [setA_of_not_mem _ _ _ hmem]
      constructor
      · rw [List.map_append, List.nodup_append]
        refine ⟨hinv.nodup, List.nodup_singleton _, ?_⟩
        intro k hk hk2
        simp only [List.map_cons, List.map_nil, List.mem_singleton] at hk2
        subst hk2
        exact hmem hk
      · rw [List.map_append, List.pairwise_append]
        refine ⟨hinv.sep, List.pairwise_singleton _ _, ?_⟩
        intro k hk b hb
        simp only [List.map_cons, List.map_nil, List.mem_singleton] at hb
        subst hb
        exact prefLen_symm_lt (hall k hk)
  | some bk =>
    obtain ⟨hbk, hbp, h4⟩ := findBest_some _ _ _ _ hfb
    have hrekey := mergeRekey_inv cm it bk bp hinv hbk hbp h4
    unfold mergeStep
    exact ⟨by rw [setA_keys_of_mem _ _ _ hrekey.2]; exact hrekey.1.nodup,
      by rw [setA_keys_of_mem _ _ _ hrekey.2]; exact hrekey.1.sep⟩

theorem foldl_KeyInv (items : List Item)
    (st : List (String × ClusterData)) (hinv : KeyInv st) :
    KeyInv (items.foldl insertItem st) := by
  induction items generalizing st with
  | nil => exact hinv
  | cons it items ih => exact ih _ (insertItem_KeyInv st it hinv)

theorem clusterRun_KeyInv (items : List Item) :
    KeyInv (clusterRun items) :=
  foldl_KeyInv items [] ⟨List.nodup_nil, List.Pairwise.nil⟩

/-! ### The instrumented run projects onto the real one -/

theorem projSt_keys (cm : List (String × (ClusterData × List String))) :
    (projSt cm).map Prod.fst = cm.map Prod.fst := by
  simp [projSt]

theorem lookupA_projSt (cm : List (String × (ClusterData × List String)))
    (k : String) : lookupA (projSt cm) k = (lookupA cm k).map Prod.fst := by
  induction cm with
  | nil => rfl
  | cons e es ih =>
    simp only [projSt, List.map_cons, lookupA]
    by_cases h0 : e.1 = k
    · rw [if_pos h0, if_pos h0]; rfl
    · rw [if_neg h0, if_neg h0]; exact ih

theorem eraseA_projSt (cm : List (String × (ClusterData × List String)))
    (k : String) : eraseA (projSt cm) k = projSt (eraseA cm k) := by
  induction cm with
  | nil => rfl
  | cons e es ih =>
    simp only [projSt, List.map_cons, eraseA]
    by_cases h0 : e.1 = k
    · rw [if_pos h0, if_pos h0]
    · rw [if_neg h0, if_neg h0]
      simp only [List.map_cons, List.cons.injEq, true_and]
      exact ih

theorem setA_projSt (cm : List (String × (ClusterData × List String)))
    (k : String) (v : ClusterData × List String) :
    projSt (setA cm k v) = setA (projSt cm) k v.1 := by
  induction cm with
  | nil => rfl
  | cons e es ih =>
    simp only [projSt, List.map_cons, setA]
    by_cases h0 : e.1 = k
    · rw [if_pos h0, if_pos h0]; rfl
    · rw [if_neg h0, if_neg h0]
      simp only [List.map_cons, List.cons.injEq, true_and]
      exact ih

theorem getD_map_fst (x : Option (ClusterData × List String)) :
    (x.map Prod.fst).getD emptyData = (x.getD (emptyData, [])).1 := by
  cases x <;> rfl

theorem mergeRekeyM_proj (cm : List (String × (ClusterData × List String)))
    (it : Item) (bk : String) (bp : Nat) :
    projSt (mergeRekeyM cm it bk bp) = mergeRekey (projSt cm) it bk bp := by
  unfold mergeRekeyM mergeRekey
  by_cases hceq : takePre bp it.norm = bk
  · rw [if_pos hceq, if_pos hceq]
  · rw [if_neg hceq, if_neg hceq, lookupA_projSt, getD_map_fst,
      eraseA_projSt, setA_projSt]

theorem mergeStepM_proj (cm : List (String × (ClusterData × List String)))
    (it : Item) (bk : String) (bp : Nat) :
    projSt (mergeStepM cm it bk bp) = mergeStep (projSt cm) it bk bp := by
  unfold mergeStepM mergeStep
  rw [setA_projSt, mergeRekeyM_proj, ← mergeRekeyM_proj, lookupA_projSt,
    getD_map_fst]

theorem insertItemM_proj (cm : List (String × (ClusterData × List String)))
    (it : Item) : projSt (insertItemM cm it) = insertItem (projSt cm) it := by
  unfold insertItemM insertItem
  rw [projSt_keys]
  rcases hfb : findBest it.norm (cm.map Prod.fst) with ⟨ob, bp⟩
  cases ob with
  | none => exact setA_projSt cm it.norm (seedData it, [it.norm])
  | some bk => exact mergeStepM_proj cm it bk bp

theorem foldl_projSt (items : List Item)
    (stM : List (String × (ClusterData × List String))) :
    projSt (items.foldl insertItemM stM)
      = items.foldl insertItem (projSt stM) := by
  induction items generalizing stM with
  | nil => rfl
  | cons it items ih =>
    simp only [List.foldl_cons]
    rw [ih, insertItemM_proj]

theorem clusterRunM_proj (items : List Item) :
    projSt (clusterRunM items) = clusterRun items :=
  foldl_projSt items []

/-! ### The member invariant of the instrumented run -/

theorem insertItemM_MemInv (cm : List (String × (ClusterData × List String)))
    (it : Item) (hkey : KeyInv (projSt cm)) (hinv : MemInv cm) :
    MemInv (insertItemM cm it) := by
  unfold insertItemM
  rcases hfb : findBest it.norm (cm.map Prod.fst) with ⟨ob, bp⟩
  cases ob with
  | none =>
    constructor
    · intro e he m hm
      rcases mem_setA _ _ _ _ he with rfl | he2
      · simp only [List.mem_singleton] at hm
        subst hm
        exact List.prefix_refl _
      · exact hinv.mem_pre e he2 m hm
    · intro e he hlen
      rcases mem_setA _ _ _ _ he with rfl | he2
      · simp at hlen
      · exact hinv.key_len e he2 hlen
  | some bk =>
    obtain ⟨hbk, hbp, h4⟩ := findBest_some _ _ _ _ hfb
    obtain ⟨hclen, hpre_n, hpre_bk⟩ := common_facts it.norm bk bp hbp h4
    obtain ⟨v0, hv0⟩ := lookupA_isSome_of_mem cm bk hbk
    have hv0mem : (bk, v0) ∈ cm := lookupA_mem _ _ _ hv0
    have hv0pre : ∀ m ∈ v0.2, bk.data <+: m.data :=
      fun m hm => hinv.mem_pre (bk, v0) hv0mem m hm
    have hcommonpre : ∀ m ∈ v0.2, (takePre bp it.norm).data <+: m.data :=
      fun m hm => hpre_bk.trans (hv0pre m hm)
    have hrk : ∀ e ∈ mergeRekeyM cm it bk bp,
        (∀ m ∈ e.2.2, e.1.data <+: m.data) ∧
        (2 ≤ e.2.2.length → 4 ≤ e.1.data.length) := by
      intro e he
      unfold mergeRekeyM at he
      by_cases hceq : takePre bp it.norm = bk
      · rw [if_pos hceq] at he
        exact ⟨hinv.mem_pre e he, hinv.key_len e he⟩
      · rw [if_neg hceq] at he
        rcases mem_setA _ _ _ _ he with rfl | he2
        · rw [hv0]
          refine ⟨?_, ?_⟩
          · intro m hm
            exact hcommonpre m hm
          · intro _
            rw [hclen]
            exact h4
        · have he3 := (eraseA_sublist cm bk).mem he2
          exact ⟨hinv.mem_pre e he3, hinv.key_len e he3⟩
    have hlook : ∀ d, lookupA (mergeRekeyM cm it bk bp)
        (takePre bp it.norm) = some d →
        (∀ m ∈ d.2, (takePre bp it.norm).data <+: m.data) := by
      intro d hd m hm
      have hdm := lookupA_mem _ _ _ hd
      exact (hrk _ hdm).1 m hm
    constructor
    · intro e he m hm
      unfold mergeStepM at he
      rcases mem_setA _ _ _ _ he with rfl | he2
      · rcases hld : lookupA (mergeRekeyM cm it bk bp)
            (takePre bp it.norm) with _ | d
        · rw [hld] at hm
          have hm2 : m ∈ ([] : List String) ++ [it.norm] := hm
          simp only [List.nil_append, List.mem_singleton] at hm2
          subst hm2
          exact hpre_n
        · rw [hld] at hm
          have hm2 : m ∈ d.2 ++ [it.norm] := hm
          show (takePre bp it.norm).data <+: m.data
          rcases List.mem_append.mp hm2 with hm3 | hm3
          · exact hlook d hld m hm3
          · rw [List.mem_singleton.mp hm3]
            exact hpre_n
      · exact (hrk e he2).1 m hm
    · intro e he hlen
      unfold mergeStepM at he
      rcases mem_setA _ _ _ _ he with rfl | he2
      · show 4 ≤ (takePre bp it.norm).data.length
        rw [hclen]
        exact h4
      · exact (hrk e he2).2 hlen

theorem foldl_MemInv (items : List Item)
    (stM : List (String × (ClusterData × List String)))
    (hkey : KeyInv (projSt stM)) (hinv : MemInv stM) :
    MemInv (items.foldl insertItemM stM) := by
  induction items generalizing stM with
  | nil => exact hinv
  | cons it items ih =>
    simp only [List.foldl_cons]
    apply ih
    · rw [insertItemM_proj]
      exact insertItem_KeyInv _ it hkey
    · exact insertItemM_MemInv stM it hkey hinv

theorem clusterRunM_MemInv (items : List Item) :
    MemInv (clusterRunM items) :=
  foldl_MemInv items [] ⟨List.nodup_nil, List.Pairwise.nil⟩
    ⟨fun e he => absurd he (List.not_mem_nil e),
     fun e he => absurd he (List.not_mem_nil e)⟩

theorem insBy_perm (le : α → α → Bool) (a : α) (l : List α) :
    (insBy le a l).Perm (a :: l) := by
  induction l with
  | nil => exact List.Perm.refl _
  | cons b bs ih =>
    unfold insBy
    by_cases h : le a b
    · rw [if_pos h]
    · rw [if_neg h]
      exact (List.Perm.cons b ih).trans (List.Perm.swap _ _ _)

theorem sortBy_perm (le : α → α → Bool) (l : List α) :
    (sortBy le l).Perm l := by
  induction l with
  | nil => exact List.Perm.refl _
  | cons a as ih =>
    unfold sortBy
    exact (insBy_perm le a (sortBy le as)).trans (List.Perm.cons a ih)

/-! ### Claims C4, C5, C10 -/

/-- Claim C4: any two distinct candidates placed into the same output
cluster have normalized names sharing a common prefix of length ≥ 4.
The first conjunct states it over the instrumented run (whose ghost
member lists record exactly which candidates each cluster absorbed), the
second proves that erasing the ghost field recovers `cluster_features`
itself. -/
theorem cluster_features_prefix_floor (ui : List UiComponent)
    (sf : List ServerlessFunction) (fs : List FeatureRec) :
    (∀ e ∈ clusterRunM (sortBy (fun a b => strLe a.norm b.norm)
        (uiItems ui ++ backendItems sf)),
      e.2.2.Pairwise (fun m1 m2 => 4 ≤ prefLen m1 m2)) ∧
    cluster_features ui sf fs =
      (if (uiItems ui ++ backendItems sf).isEmpty then [] else
        (sortBy (fun (a b : String × ClusterData) => strLe a.1 b.1)
          (projSt (clusterRunM (sortBy (fun a b => strLe a.norm b.norm)
            (uiItems ui ++ backendItems sf))))).map mkCluster) := by
  constructor
  · intro e he
    have hmem := clusterRunM_MemInv (sortBy (fun a b => strLe a.norm b.norm)
      (uiItems ui ++ backendItems sf))
    rcases hms : e.2.2 with _ | ⟨m0, _ | ⟨m1, ms⟩⟩
    · exact List.Pairwise.nil
    · exact List.pairwise_singleton _ _
    · have hlen : 2 ≤ e.2.2.length := by
        rw [hms]
        simp only [List.length_cons]
        omega
      have hkl := hmem.key_len e he hlen
      have hpre := hmem.mem_pre e he
      rw [hms] at hpre
      apply List.pairwise_of_forall_mem_list
      intro a ha b hb
      have hub := le_commonPrefixLen_of_pre e.1.data a.data b.data
        (hpre a ha) (hpre b hb)
      unfold prefLen
      omega
  · rw [clusterRunM_proj]
    rfl

/-- Claim C5: a cluster's confidence is "high" iff all three tier lists
are non-empty, "medium" iff exactly two are, and "low" iff at most one
is. -/
theorem cluster_features_confidence (ui : List UiComponent)
    (sf : List ServerlessFunction) (fs : List FeatureRec) :
    ∀ c ∈ cluster_features ui sf fs,
      (c.confidence = "high" ↔
        (c.frontend ≠ [] ∧ c.backend ≠ [] ∧ c.mobile ≠ [])) ∧
      (c.confidence = "medium" ↔
        ((c.frontend ≠ [] ∧ c.backend ≠ [] ∧ c.mobile = []) ∨
         (c.frontend ≠ [] ∧ c.backend = [] ∧ c.mobile ≠ []) ∨
         (c.frontend = [] ∧ c.backend ≠ [] ∧ c.mobile ≠ []))) ∧
      (c.confidence = "low" ↔
        ((c.backend = [] ∧ c.mobile = []) ∨
         (c.frontend = [] ∧ c.mobile = []) ∨
         (c.frontend = [] ∧ c.backend = []))) := by
  intro c hc
  unfold cluster_features at hc
  by_cases hemp : (uiItems ui ++ backendItems sf).isEmpty
  · rw [if_pos hemp] at hc
    cases hc
  · rw [if_neg hemp] at hc
    rcases List.mem_map.mp hc with ⟨e, _, rfl⟩
    show ((mkCluster e).confidence = "high" ↔ _) ∧ _
    by_cases h1 : e.2.frontend = [] <;> by_cases h2 : e.2.backend = [] <;>
      by_cases h3 : e.2.mobile = [] <;>
        · unfold mkCluster
          simp only [h1, List.isEmpty_nil, if_true, if_false]
          constructor
          · constructor <;> intro hx <;> simp_all <;> rfl
          constructor
          · constructor <;> intro hx <;> simp_all <;> rfl
          · constructor <;> intro hx <;> simp_all <;> rfl

/-- Claim C10: re-keying only ever shortens a cluster key to a prefix of
the old key; every final cluster key is a prefix of the normalized name
of each of its members; and cluster names are pairwise distinct. -/
theorem cluster_features_key_names (ui : List UiComponent)
    (sf : List ServerlessFunction) (fs : List FeatureRec) :
    (∀ norm keys bk bp, findBest norm keys = (some bk, bp) →
        (takePre bp norm).data <+: bk.data ∧
        (takePre bp norm).data <+: norm.data) ∧
    (∀ e ∈ clusterRunM (sortBy (fun a b => strLe a.norm b.norm)
        (uiItems ui ++ backendItems sf)),
      ∀ m ∈ e.2.2, e.1.data <+: m.data) ∧
    ((cluster_features ui sf fs).map (fun c => c.name)).Nodup := by
  refine ⟨?_, ?_, ?_⟩
  · intro norm keys bk bp hfb
    obtain ⟨_, hbp, h4⟩ := findBest_some _ _ _ _ hfb
    obtain ⟨_, hpre_n, hpre_bk⟩ := common_facts norm bk bp hbp h4
    exact ⟨hpre_bk, hpre_n⟩
  · intro e he m hm
    exact (clusterRunM_MemInv _).mem_pre e he m hm
  · unfold cluster_features
    by_cases hemp : (uiItems ui ++ backendItems sf).isEmpty
    · rw [if_pos hemp]
      exact List.nodup_nil
    · rw [if_neg hemp]
      rw [List.map_map]
      have heq : ((fun c => FeatureCluster.name c) ∘ mkCluster)
          = Prod.fst := by
        funext e
        rfl
      rw [heq]
      have hperm := (sortBy_perm
        (fun (a b : String × ClusterData) => strLe a.1 b.1)
        (clusterRun (sortBy (fun a b => strLe a.norm b.norm)
          (uiItems ui ++ backendItems sf)))).map Prod.fst
      exact ((clusterRun_KeyInv _).nodup).perm hperm.symm

/-! ### Claim C6: serverless detection drops unparsable descriptors -/

theorem firstAws_none (cs rootFiles : List String)
    (h : ∀ c ∈ cs, c ∉ rootFiles) : firstAws cs rootFiles = none := by
  induction cs with
  | nil => rfl
  | cons c cs ih =>
    unfold firstAws
    rw [if_neg (h c (List.mem_cons_self _ _))]
    exact ih (fun x hx => h x (List.mem_cons_of_mem _ hx))

theorem azureEntries_filterMap (l : List AzureFile) :
    azureEntries l = l.filterMap (fun f =>
      if should_exclude f.relParts then none
      else f.parsed.map (mkAzureEntry f)) := by
  induction l with
  | nil => rfl
  | cons f fs ih =>
    simp only [azureEntries, List.filterMap_cons]
    by_cases he : should_exclude f.relParts
    · rw [if_pos he, if_pos he]
      exact ih
    · rw [if_neg he, if_neg he]
      cases hp : f.parsed with
      | none => simpa [Option.map] using ih
      | some bindings => simpa [Option.map] using ih

theorem azureEntries_length (l : List AzureFile) :
    (azureEntries l).length = (l.filter (fun f =>
      !should_exclude f.relParts && f.parsed.isSome)).length := by
  induction l with
  | nil => rfl
  | cons f fs ih =>
    simp only [azureEntries]
    by_cases he : should_exclude f.relParts
    · rw [if_pos he, List.filter_cons_of_neg (by simp [he])]
      exact ih
    · rw [if_neg he]
      cases hp : f.parsed with
      | none =>
        rw [List.filter_cons_of_neg (by simp [he, hp])]
        exact ih
      | some bindings =>
        rw [List.filter_cons_of_pos (by simp [he, hp])]
        simp only [List.length_cons, ih]

/-- Claim C6: when the only serverless descriptors are Azure
`function.json` files (none of the AWS config files exists at the root
and there is no `api/` directory), `detect_serverless_functions` returns
exactly one entry per parsable, non-excluded descriptor; each unparsable
descriptor is dropped on its own without raising and without affecting
the other entries. -/
theorem serverless_drops_unparsable (fs : ServerlessFs)
    (haws : ∀ c ∈ AWS_CONFIGS, c ∉ fs.rootFiles)
    (hapi : fs.apiDir = none) :
    detect_serverless_functions fs
      = fs.azureFiles.filterMap (fun f =>
          if should_exclude f.relParts then none
          else f.parsed.map (mkAzureEntry f)) ∧
    (detect_serverless_functions fs).length
      = (fs.azureFiles.filter (fun f =>
          !should_exclude f.relParts && f.parsed.isSome)).length := by
  have hz : awsEntries fs.rootFiles = [] := by
    unfold awsEntries
    rw [firstAws_none _ _ haws]
  unfold detect_serverless_functions
  rw [hz, hapi]
  simp only [vercelEntries, List.append_nil]
  exact ⟨azureEntries_filterMap _, azureEntries_length _⟩

/-- Claim C6 witness: one unparsable descriptor alongside two valid ones
gives exactly two entries. -/
theorem serverless_drops_unparsable_witness :
    ((∀ c ∈ AWS_CONFIGS, c ∉ c6fs.rootFiles) ∧ c6fs.apiDir = none) ∧
    (detect_serverless_functions c6fs).length
      = (c6fs.azureFiles.filter (fun f =>
          !should_exclude f.relParts && f.parsed.isSome)).length ∧
    (detect_serverless_functions c6fs).length = 2 :=
  ⟨⟨by decide, rfl⟩,
   (serverless_drops_unparsable c6fs (by decide) rfl).2,
   by decide⟩

/-! ### Claim C1: a cluster can end up in no domain (code bug) -/

/-- Claim C1 (code bug): the cluster "abcd" belongs to `cluster_list`
but to no domain.  The sub-project "web" has no recognized framework, so
its domain type is "shared"; the orphan cluster has frontend paths but
no frontend-typed domain exists, so step 3 marks it in `cluster_assigned`
("Collect for uncategorized domain"), and the `still_orphan` filter then
excludes it for being in `cluster_assigned` — the uncategorized domain is
never created and the cluster is dropped from every domain. -/
theorem domains_drop_unassignable_cluster :
    detect_domains c1root [c1sp] [c1cluster] []
      = [{ name := "web", type := "shared", sub_projects := ["web"],
           clusters := [], infra_paths := [], estimated_features := 1 }] ∧
    ((detect_domains c1root [c1sp] [c1cluster] []).map
      (fun d => d.clusters)).flatten = [] := by
  constructor
  · decide
  · decide

/-! ### Claim C2: single-root domain synthesis -/

/-- Claim C2 counterexample: with zero sub-projects but one feature
cluster, the single returned domain is the synthetic "uncategorized"
domain — not a domain named from the manifest or root directory name as
the claim states. -/
theorem domains_no_subprojects_counterexample :
    (detect_domains c2root [] [c2cluster] []).map (fun d => d.name)
      = ["uncategorized"] ∧
    (detect_domains c2root [] [c2cluster] []).map (fun d => d.type)
      = ["uncategorized"] ∧
    c2root.name = "myproj" ∧ ("uncategorized" : String) ≠ "myproj" := by
  refine ⟨by decide, by decide, rfl, by decide⟩

/-- Claim C2 (amended): when `detect_sub_projects` is empty AND no other
domain was created first (no feature clusters, and the infrastructure
criterion does not fire), exactly one domain is synthesized from the
root: named from the truthy package name (scope stripped) or the root
directory name, typed from the root framework via the domain-type table
(default "shared"), claiming every (that is, zero) discovered cluster,
with `estimated_features = 0`. -/
theorem domains_single_root (root : RootInfo) (ip : List InfraPattern)
    (hip : ¬(3 ≤ ip.length ∨ (ip.filter (fun p => p.type = "iac")) ≠ [])) :
    detect_domains root [] [] ip
      = [{ name := rootDomainName root,
           type := (lookupA FRAMEWORK_DOMAIN_TYPE
             (root.framework.getD "")).getD "shared",
           sub_projects := [], clusters := [],
           infra_paths := if ip ≠ [] then ip.map (fun p => p.path) else [],
           estimated_features := 0 }] := by
  have h2 : infraDomain ip = [] := by
    unfold infraDomain
    rw [if_neg hip]
  unfold detect_domains
  rw [h2]
  simp [subProjectDomains, rootDomain]

/-- Claim C2 witness: a root with a scoped package name and a React
framework, no infra patterns. -/
theorem domains_single_root_witness :
    (¬(3 ≤ ([] : List InfraPattern).length ∨
      (([] : List InfraPattern).filter (fun p => p.type = "iac")) ≠ [])) ∧
    detect_domains c2rootW [] [] []
      = [{ name := "pkg", type := "frontend", sub_projects := [],
           clusters := [], infra_paths := [], estimated_features := 0 }] := by
  refine ⟨by decide, ?_⟩
  rw [domains_single_root c2rootW [] (by decide)]
  decide

/-! ### Claim C7: the multi-language backfill is order-dependent -/

/-- Claim C7 (code bug): with two sub-projects in sorted directory order
(languages "Go" then "Rust"), both ["Go", "Rust"] and ["Rust", "Go"] are
valid enumerations of the set `\x7bsp["language"] for sp in sub_projects\x7d`
(CPython pins no order for a str set), yet the backfill block returns a
different `stack.language` for each — so the chosen language is not
determined to be that of the earliest detected sub-project ("Go"), and
is not deterministic across hash seeds.  Both orders agree on the "low"
confidence label, and a singleton set yields "medium" regardless of
order. -/
theorem backfill_language_order_dependent :
    IsSetEnum ["Go", "Rust"] (spLanguages c7subs) ∧
    IsSetEnum ["Rust", "Go"] (spLanguages c7subs) ∧
    backfillLanguage none c7subs ["Go", "Rust"]
      = (some "Go", some "low") ∧
    backfillLanguage none c7subs ["Rust", "Go"]
      = (some "Rust", some "low") ∧
    backfillLanguage none c7subs ["Go", "Rust"]
      ≠ backfillLanguage none c7subs ["Rust", "Go"] := by
  refine ⟨⟨by decide, ?_⟩, ⟨by decide, ?_⟩, by decide, by decide, by decide⟩
  · intro s
    rw [show spLanguages c7subs = ["Go", "Rust"] from rfl]
  · intro s
    rw [show spLanguages c7subs = ["Go", "Rust"] from rfl]
    constructor <;> intro h <;>
      simp only [List.mem_cons, List.not_mem_nil, or_false] at h ⊢ <;>
        tauto

/-! ### Witnesses for C4, C5, C10 -/

/-- Claim C4 witness: a page "Checkout" and a function "checkoutApi"
merge into one cluster whose two members share the 8-character prefix
"checkout". -/
theorem cluster_features_prefix_floor_witness :
    c4entry ∈ clusterRunM (sortBy (fun a b => strLe a.norm b.norm)
      (uiItems c4ui ++ backendItems c4sf)) ∧
    (["checkout", "checkoutapi"] : List String).Pairwise
      (fun m1 m2 => 4 ≤ prefLen m1 m2) :=
  ⟨by decide, (cluster_features_prefix_floor c4ui c4sf []).1 c4entry (by decide)⟩

/-- Claim C5 witness: the merged checkout cluster has frontend and
backend paths, no mobile ones, and confidence "medium". -/
theorem cluster_features_confidence_witness :
    c5c ∈ cluster_features c4ui c4sf [] ∧
    ((c5c.confidence = "high" ↔
        (c5c.frontend ≠ [] ∧ c5c.backend ≠ [] ∧ c5c.mobile ≠ [])) ∧
     (c5c.confidence = "medium" ↔
        ((c5c.frontend ≠ [] ∧ c5c.backend ≠ [] ∧ c5c.mobile = []) ∨
         (c5c.frontend ≠ [] ∧ c5c.backend = [] ∧ c5c.mobile ≠ []) ∨
         (c5c.frontend = [] ∧ c5c.backend ≠ [] ∧ c5c.mobile ≠ []))) ∧
     (c5c.confidence = "low" ↔
        ((c5c.backend = [] ∧ c5c.mobile = []) ∨
         (c5c.frontend = [] ∧ c5c.mobile = []) ∨
         (c5c.frontend = [] ∧ c5c.backend = [])))) :=
  ⟨by decide, cluster_features_confidence c4ui c4sf [] c5c (by decide)⟩

/-- Claim C10 witness: inserting "checkoutapi" against the existing key
"checkout" re-keys to a prefix; the final key is a prefix of both member
names, and the output names are distinct. -/
theorem cluster_features_key_names_witness :
    (findBest "checkoutapi" ["checkout"] = (some "checkout", 8)) ∧
    ((takePre 8 "checkoutapi").data <+: "checkout".data ∧
      (takePre 8 "checkoutapi").data <+: "checkoutapi".data) ∧
    c4entry ∈ clusterRunM (sortBy (fun a b => strLe a.norm b.norm)
      (uiItems c4ui ++ backendItems c4sf)) ∧
    ("checkoutapi" : String) ∈ c4entry.2.2 ∧
    c4entry.1.data <+: "checkoutapi".data ∧
    ((cluster_features c4ui c4sf []).map (fun c => c.name)).Nodup :=
  ⟨by decide,
   (cluster_features_key_names c4ui c4sf []).1 "checkoutapi" ["checkout"]
     "checkout" 8 (by decide),
   by decide, by decide,
   (cluster_features_key_names c4ui c4sf []).2.1 c4entry (by decide)
     "checkoutapi" (by decide),
   (cluster_features_key_names c4ui c4sf []).2.2⟩

/-! ### Claim C8: the bounded census -/

theorem sumCounts_bumpCount (l : List (String × Nat)) (ext : String) :
    sumCounts (bumpCount l ext) = sumCounts l + 1 := by
  induction l with
  | nil => rfl
  | cons e es ih =>
    unfold bumpCount
    by_cases h0 : e.1 = ext
    · rw [if_pos h0]
      simp only [sumCounts, List.map_cons, List.sum_cons]
      omega
    · rw [if_neg h0]
      simp only [sumCounts, List.map_cons, List.sum_cons] at ih ⊢
      omega

theorem recogLen_cons_pos (f : String) (fs : List String)
    (h : suffixLower f ∈ SOURCE_EXTENSIONS) :
    recogLen (f :: fs) = recogLen fs + 1 := by
  unfold recogLen
  rw [List.filter_cons_of_pos (by simpa using h)]
  rfl

theorem recogLen_cons_neg (f : String) (fs : List String)
    (h : ¬(suffixLower f ∈ SOURCE_EXTENSIONS)) :
    recogLen (f :: fs) = recogLen fs := by
  unfold recogLen
  rw [List.filter_cons_of_neg (by simpa using h)]

theorem countFilesStep_cons (f : String) (fs : List String) (st : Census) :
    countFilesStep (f :: fs) st
      = if suffixLower f ∈ SOURCE_EXTENSIONS then
          if MAX_FILES_SCAN ≤ st.total + 1 then
            Sum.inl ⟨bumpCount st.counts (suffixLower f), st.total + 1⟩
          else countFilesStep fs
            ⟨bumpCount st.counts (suffixLower f), st.total + 1⟩
        else countFilesStep fs st := rfl

theorem walkDirs_cons (parts : List String) (st : Census) (t : FsTree)
    (rest : FsForest) :
    walkDirs parts st (FsForest.cons t rest)
      = match walkDir (parts ++ [dirName t]) st t with
        | Sum.inl c => Sum.inl c
        | Sum.inr st2 => walkDirs parts st2 rest := rfl

theorem countFilesStep_spec (files : List String) (st : Census)
    (h : st.total < MAX_FILES_SCAN) :
    (resCensus (countFilesStep files st)).total
      = min (st.total + recogLen files) MAX_FILES_SCAN ∧
    (∀ c, countFilesStep files st = Sum.inl c →
      c.total = MAX_FILES_SCAN) ∧
    (∀ c, countFilesStep files st = Sum.inr c →
      c.total < MAX_FILES_SCAN) ∧
    (sumCounts st.counts = st.total →
      sumCounts (resCensus (countFilesStep files st)).counts
        = (resCensus (countFilesStep files st)).total) := by
  induction files generalizing st with
  | nil =>
    refine ⟨?_, ?_, ?_, ?_⟩
    · show st.total = min (st.total + recogLen []) MAX_FILES_SCAN
      have : recogLen [] = 0 := rfl
      omega
    · intro c hc; cases hc
    · intro c hc
      cases hc
      exact h
    · intro hs; exact hs
  | cons f fs ih =>
    by_cases hrec : suffixLower f ∈ SOURCE_EXTENSIONS
    · have hlen := recogLen_cons_pos f fs hrec
      by_cases hmax : MAX_FILES_SCAN ≤ st.total + 1
      · have hstep : countFilesStep (f :: fs) st
            = Sum.inl ⟨bumpCount st.counts (suffixLower f), st.total + 1⟩ := by
          rw [countFilesStep_cons, if_pos hrec, if_pos hmax]
        have htot : st.total + 1 = MAX_FILES_SCAN := by omega
        refine ⟨?_, ?_, ?_, ?_⟩
        · rw [hstep]
          show st.total + 1 = min (st.total + recogLen (f :: fs)) MAX_FILES_SCAN
          omega
        · intro c hc
          rw [hstep] at hc
          cases hc
          exact htot
        · intro c hc
          rw [hstep] at hc
          cases hc
        · intro hs
          rw [hstep]
          show sumCounts (bumpCount st.counts (suffixLower f)) = st.total + 1
          rw [sumCounts_bumpCount, hs]
      · have hstep : countFilesStep (f :: fs) st
            = countFilesStep fs ⟨bumpCount st.counts (suffixLower f), st.total + 1⟩ := by
          rw [countFilesStep_cons, if_pos hrec, if_neg hmax]
        have h2 : (⟨bumpCount st.counts (suffixLower f), st.total + 1⟩ : Census).total
            < MAX_FILES_SCAN := by
          show st.total + 1 < MAX_FILES_SCAN
          omega
        obtain ⟨ha, hb, hc2, hd⟩ := ih _ h2
        refine ⟨?_, ?_, ?_, ?_⟩
        · rw [hstep, ha]
          show min (st.total + 1 + recogLen fs) MAX_FILES_SCAN
            = min (st.total + recogLen (f :: fs)) MAX_FILES_SCAN
          omega
        · intro c hcc
          rw [hstep] at hcc
          exact hb c hcc
        · intro c hcc
          rw [hstep] at hcc
          exact hc2 c hcc
        · intro hs
          rw [hstep]
          apply hd
          show sumCounts (bumpCount st.counts (suffixLower f)) = st.total + 1
          rw [sumCounts_bumpCount, hs]
    · have hlen := recogLen_cons_neg f fs hrec
      have hstep : countFilesStep (f :: fs) st = countFilesStep fs st := by
        rw [countFilesStep_cons, if_neg hrec]
      obtain ⟨ha, hb, hc2, hd⟩ := ih st h
      refine ⟨?_, ?_, ?_, ?_⟩
      · rw [hstep, ha, hlen]
      · intro c hcc; rw [hstep] at hcc; exact hb c hcc
      · intro c hcc; rw [hstep] at hcc; exact hc2 c hcc
      · intro hs; rw [hstep]; exact hd hs

mutual
theorem walkDir_spec (parts : List String) (st : Census) (t : FsTree)
    (h : st.total < MAX_FILES_SCAN) (hsum : sumCounts st.counts = st.total) :
    (resCensus (walkDir parts st t)).total
      = min (st.total + recognizedCount parts t) MAX_FILES_SCAN ∧
    sumCounts (resCensus (walkDir parts st t)).counts
      = (resCensus (walkDir parts st t)).total ∧
    (∀ c, walkDir parts st t = Sum.inl c → c.total = MAX_FILES_SCAN) ∧
    (∀ c, walkDir parts st t = Sum.inr c → c.total < MAX_FILES_SCAN) := by
  cases t with
  | node n files subs =>
    by_cases hskip : (should_exclude parts
        || decide (MAX_DEPTH < parts.length)) = true
    · have hw : walkDir parts st (FsTree.node n files subs) = Sum.inr st := by
        unfold walkDir
        rw [if_pos hskip]
      have hr : recognizedCount parts (FsTree.node n files subs) = 0 := by
        unfold recognizedCount
        rw [if_pos hskip]
      refine ⟨?_, ?_, ?_, ?_⟩
      · rw [hw, hr]
        show st.total = min (st.total + 0) MAX_FILES_SCAN
        omega
      · rw [hw]
        exact hsum
      · intro c hc; rw [hw] at hc; cases hc
      · intro c hc
        rw [hw] at hc
        cases hc
        exact h
    · have hr : recognizedCount parts (FsTree.node n files subs)
          = recogLen files + recognizedForest parts subs := by
        unfold recognizedCount
        rw [if_neg hskip]
      obtain ⟨ca, cb, cc, cd⟩ := countFilesStep_spec files st h
      rcases hcf : countFilesStep files st with c1 | st2
      · have hw : walkDir parts st (FsTree.node n files subs) = Sum.inl c1 := by
          unfold walkDir
          rw [if_neg hskip, hcf]
        have htot : c1.total = MAX_FILES_SCAN := cb c1 hcf
        have hmin : MAX_FILES_SCAN ≤ st.total + recogLen files := by
          rw [hcf] at ca
          simp only [resCensus] at ca
          omega
        refine ⟨?_, ?_, ?_, ?_⟩
        · rw [hw, hr]
          show c1.total = min (st.total + (recogLen files
            + recognizedForest parts subs)) MAX_FILES_SCAN
          omega
        · rw [hw]
          have := cd hsum
          rw [hcf] at this
          exact this
        · intro c hc
          rw [hw] at hc
          cases hc
          exact htot
        · intro c hc; rw [hw] at hc; cases hc
      · have hw : walkDir parts st (FsTree.node n files subs)
            = walkDirs parts st2 subs := by
          unfold walkDir
          rw [if_neg hskip, hcf]
        have hlt : st2.total < MAX_FILES_SCAN := cc st2 hcf
        have heq : st2.total = st.total + recogLen files := by
          rw [hcf] at ca
          simp only [resCensus] at ca
          omega
        have hsum2 : sumCounts st2.counts = st2.total := by
          have := cd hsum
          rw [hcf] at this
          exact this
        obtain ⟨fa, fb, fc, fd⟩ := walkDirs_spec parts st2 subs hlt hsum2
        refine ⟨?_, ?_, ?_, ?_⟩
        · rw [hw, fa, hr, heq]
          omega
        · rw [hw]
          exact fb
        · intro c hc
          rw [hw] at hc
          exact fc c hc
        · intro c hc
          rw [hw] at hc
          exact fd c hc
theorem walkDirs_spec (parts : List String) (st : Census) (ts : FsForest)
    (h : st.total < MAX_FILES_SCAN) (hsum : sumCounts st.counts = st.total) :
    (resCensus (walkDirs parts st ts)).total
      = min (st.total + recognizedForest parts ts) MAX_FILES_SCAN ∧
    sumCounts (resCensus (walkDirs parts st ts)).counts
      = (resCensus (walkDirs parts st ts)).total ∧
    (∀ c, walkDirs parts st ts = Sum.inl c → c.total = MAX_FILES_SCAN) ∧
    (∀ c, walkDirs parts st ts = Sum.inr c → c.total < MAX_FILES_SCAN) := by
  cases ts with
  | nil =>
    refine ⟨?_, ?_, ?_, ?_⟩
    · show st.total = min (st.total + recognizedForest parts FsForest.nil)
        MAX_FILES_SCAN
      have : recognizedForest parts FsForest.nil = 0 := rfl
      omega
    · exact hsum
    · intro c hc; cases hc
    · intro c hc; cases hc; exact h
  | cons t rest =>
    have hrf : recognizedForest parts (FsForest.cons t rest)
        = recognizedCount (parts ++ [dirName t]) t
          + recognizedForest parts rest := rfl
    obtain ⟨da, db, dc, dd⟩ :=
      walkDir_spec (parts ++ [dirName t]) st t h hsum
    rcases hwd : walkDir (parts ++ [dirName t]) st t with c1 | st2
    · have hw : walkDirs parts st (FsForest.cons t rest) = Sum.inl c1 := by
        rw [walkDirs_cons, hwd]
      have htot : c1.total = MAX_FILES_SCAN := dc c1 hwd
      have hge : MAX_FILES_SCAN
          ≤ st.total + recognizedCount (parts ++ [dirName t]) t := by
        rw [hwd] at da
        simp only [resCensus] at da
        omega
      refine ⟨?_, ?_, ?_, ?_⟩
      · rw [hw, hrf]
        show c1.total = min (st.total + (recognizedCount (parts ++ [dirName t]) t
          + recognizedForest parts rest)) MAX_FILES_SCAN
        omega
      · rw [hw]
        have := db
        rw [hwd] at this
        exact this
      · intro c hc
        rw [hw] at hc
        cases hc
        exact htot
      · intro c hc; rw [hw] at hc; cases hc
    · have hw : walkDirs parts st (FsForest.cons t rest)
          = walkDirs parts st2 rest := by
        rw [walkDirs_cons, hwd]
      have hlt : st2.total < MAX_FILES_SCAN := dd st2 hwd
      have heq : st2.total
          = st.total + recognizedCount (parts ++ [dirName t]) t := by
        rw [hwd] at da
        simp only [resCensus] at da
        omega
      have hsum2 : sumCounts st2.counts = st2.total := by
        have := db
        rw [hwd] at this
        exact this
      obtain ⟨fa, fb, fc, fd⟩ := walkDirs_spec parts st2 rest hlt hsum2
      refine ⟨?_, ?_, ?_, ?_⟩
      · rw [hw, fa, hrf, heq]
        omega
      · rw [hw]
        exact fb
      · intro c hc
        rw [hw] at hc
        exact fc c hc
      · intro c hc
        rw [hw] at hc
        exact fd c hc
end

/-- Claim C8: the census walk terminates on every tree (it is a total
function of the tree), its total never exceeds MAX_FILES_SCAN, and on a
tree with more recognized source files than the limit it returns a
non-empty partial census of exactly MAX_FILES_SCAN files instead of
raising or continuing. -/
theorem count_source_files_bounded (t : FsTree) :
    sumCounts (count_source_files t) ≤ MAX_FILES_SCAN ∧
    (MAX_FILES_SCAN < recognizedCount [] t →
      sumCounts (count_source_files t) = MAX_FILES_SCAN ∧
      count_source_files t ≠ []) := by
  obtain ⟨ha, hb, _, _⟩ :=
    walkDir_spec [] ⟨[], 0⟩ t (by decide) rfl
  have hcsf : sumCounts (count_source_files t)
      = min (recognizedCount [] t) MAX_FILES_SCAN := by
    unfold count_source_files
    rw [hb, ha]
    show min (0 + recognizedCount [] t) MAX_FILES_SCAN = _
    omega
  constructor
  · rw [hcsf]
    omega
  · intro hgt
    constructor
    · rw [hcsf]
      omega
    · intro hnil
      have : sumCounts (count_source_files t) = 0 := by
        rw [hnil]
        rfl
      rw [hcsf] at this
      unfold MAX_FILES_SCAN at this hgt
      omega

theorem recogLen_replicate (n : Nat) :
    recogLen (List.replicate n "a.py") = n := by
  induction n with
  | zero => rfl
  | succ m ih =>
    rw [List.replicate_succ, recogLen_cons_pos _ _ (by decide), ih]

/-- Claim C8 witness: a directory of 10001 recognized files exceeds the
limit and yields a non-empty census of exactly 10000 files. -/
theorem count_source_files_bounded_witness :
    MAX_FILES_SCAN < recognizedCount []
      (FsTree.node "r" (List.replicate 10001 "a.py") FsForest.nil) ∧
    sumCounts (count_source_files
      (FsTree.node "r" (List.replicate 10001 "a.py") FsForest.nil))
      = MAX_FILES_SCAN ∧
    count_source_files
      (FsTree.node "r" (List.replicate 10001 "a.py") FsForest.nil) ≠ [] := by
  have hrec : recognizedCount []
      (FsTree.node "r" (List.replicate 10001 "a.py") FsForest.nil) = 10001 := by
    unfold recognizedCount
    rw [if_neg (by decide)]
    rw [recogLen_replicate]
    rfl
  have hgt : MAX_FILES_SCAN < recognizedCount []
      (FsTree.node "r" (List.replicate 10001 "a.py") FsForest.nil) := by
    rw [hrec]
    decide
  obtain ⟨h1, h2⟩ := (count_source_files_bounded
    (FsTree.node "r" (List.replicate 10001 "a.py") FsForest.nil)).2 hgt
  exact ⟨hgt, h1, h2⟩

/-! ### Claim C9: determinism of clustering and domain assignment -/

theorem lexLe_refl (l : List Char) : lexLe l l = true := by
  induction l with
  | nil => rfl
  | cons c cs ih => simp [lexLe, ih]

theorem lexLe_total (a b : List Char) :
    lexLe a b = true ∨ lexLe b a = true := by
  induction a generalizing b with
  | nil => exact Or.inl rfl
  | cons x xs ih =>
    cases b with
    | nil => exact Or.inr rfl
    | cons y ys =>
      by_cases hxy : x = y
      · subst hxy
        rcases ih ys with h | h
        · exact Or.inl (by simp [lexLe, h])
        · exact Or.inr (by simp [lexLe, h])
      · rcases Ne.lt_or_lt hxy with h | h
        · exact Or.inl (by simp [lexLe, hxy, h])
        · exact Or.inr (by
            have hyx : ¬(y = x) := fun he => hxy he.symm
            simp [lexLe, hyx, h])

theorem lexLe_antisymm (a b : List Char) (h1 : lexLe a b = true)
    (h2 : lexLe b a = true) : a = b := by
  induction a generalizing b with
  | nil =>
    cases b with
    | nil => rfl
    | cons y ys => exact absurd h2 (by simp [lexLe])
  | cons x xs ih =>
    cases b with
    | nil => exact absurd h1 (by simp [lexLe])
    | cons y ys =>
      by_cases hxy : x = y
      · subst hxy
        simp only [lexLe, if_pos rfl] at h1 h2
        rw [ih ys h1 h2]
      · have hyx : ¬(y = x) := fun he => hxy he.symm
        simp only [lexLe, if_neg hxy, decide_eq_true_eq] at h1
        simp only [lexLe, if_neg hyx, decide_eq_true_eq] at h2
        exact absurd h2 (lt_asymm h1)

theorem lexLe_trans (a b c : List Char) (h1 : lexLe a b = true)
    (h2 : lexLe b c = true) : lexLe a c = true := by
  induction a generalizing b c with
  | nil => rfl
  | cons x xs ih =>
    cases b with
    | nil => exact absurd h1 (by simp [lexLe])
    | cons y ys =>
      cases c with
      | nil => exact absurd h2 (by simp [lexLe])
      | cons z zs =>
        by_cases hxy : x = y
        · subst hxy
          simp only [lexLe, if_pos rfl] at h1
          by_cases hxz : x = z
          · subst hxz
            simp only [lexLe, if_pos rfl] at h2 ⊢
            exact ih ys zs h1 h2
          · simp only [lexLe, if_neg hxz] at h2 ⊢
            exact h2
        · simp only [lexLe, if_neg hxy, decide_eq_true_eq] at h1
          by_cases hyz : y = z
          · have hxz : x < z := hyz ▸ h1
            have hne : ¬(x = z) := ne_of_lt hxz
            simp only [lexLe, if_neg hne, decide_eq_true_eq]
            exact hxz
          · simp only [lexLe, if_neg hyz, decide_eq_true_eq] at h2
            have hlt : x < z := lt_trans h1 h2
            have hne : ¬(x = z) := ne_of_lt hlt
            simp only [lexLe, if_neg hne, decide_eq_true_eq]
            exact hlt

theorem strLe_total (a b : String) : strLe a b = true ∨ strLe b a = true :=
  lexLe_total a.data b.data

theorem strLe_antisymm (a b : String) (h1 : strLe a b = true)
    (h2 : strLe b a = true) : a = b :=
  String.ext (lexLe_antisymm a.data b.data h1 h2)

theorem strLe_trans (a b c : String) (h1 : strLe a b = true)
    (h2 : strLe b c = true) : strLe a c = true :=
  lexLe_trans a.data b.data c.data h1 h2

theorem insBy_sorted (le : α → α → Bool)
    (htrans : ∀ a b c, le a b = true → le b c = true → le a c = true)
    (htotal : ∀ a b, le a b = true ∨ le b a = true)
    (a : α) (l : List α) (hs : l.Pairwise (fun x y => le x y = true)) :
    (insBy le a l).Pairwise (fun x y => le x y = true) := by
  induction l with
  | nil => exact List.pairwise_singleton _ _
  | cons b bs ih =>
    unfold insBy
    obtain ⟨hb, hbs⟩ := List.pairwise_cons.mp hs
    by_cases hab : le a b = true
    · rw [if_pos hab]
      refine List.pairwise_cons.mpr ⟨?_, hs⟩
      intro x hx
      rcases List.mem_cons.mp hx with rfl | hx2
      · exact hab
      · exact htrans a b x hab (hb x hx2)
    · rw [if_neg hab]
      have hba : le b a = true := (htotal a b).resolve_left hab
      refine List.pairwise_cons.mpr ⟨?_, ih hbs⟩
      intro x hx
      have hx2 : x ∈ a :: bs := (insBy_perm le a bs).mem_iff.mp hx
      rcases List.mem_cons.mp hx2 with rfl | hx3
      · exact hba
      · exact hb x hx3

theorem sortBy_sorted (le : α → α → Bool)
    (htrans : ∀ a b c, le a b = true → le b c = true → le a c = true)
    (htotal : ∀ a b, le a b = true ∨ le b a = true) (l : List α) :
    (sortBy le l).Pairwise (fun x y => le x y = true) := by
  induction l with
  | nil => exact List.Pairwise.nil
  | cons a as ih => exact insBy_sorted le htrans htotal a (sortBy le as) ih

theorem lookupA_perm {α : Type} (l1 l2 : List (String × α))
    (h : l1.Perm l2) (hnd : (l1.map Prod.fst).Nodup) (k : String) :
    lookupA l1 k = lookupA l2 k := by
  have hnd2 : (l2.map Prod.fst).Nodup := hnd.perm (h.map _)
  rcases hl : lookupA l1 k with _ | v
  · rcases hl2 : lookupA l2 k with _ | w
    · rfl
    · have hmem : (k, w) ∈ l1 := h.mem_iff.mpr (lookupA_mem _ _ _ hl2)
      rw [(lookupA_eq_some_iff l1 hnd k w).mpr hmem] at hl
      cases hl
  · have hmem : (k, v) ∈ l2 := h.mem_iff.mp (lookupA_mem _ _ _ hl)
    rw [(lookupA_eq_some_iff l2 hnd2 k v).mpr hmem]

theorem eraseA_not_mem {α : Type} (l : List (String × α)) (k : String)
    (hk : k ∉ l.map Prod.fst) : eraseA l k = l := by
  induction l with
  | nil => rfl
  | cons e es ih =>
    unfold eraseA
    have h0 : ¬(e.1 = k) := fun he => hk (by simp [he])
    rw [if_neg h0, ih (fun h2 => hk (by simp; right; simpa using h2))]

theorem eraseA_perm {α : Type} (l1 l2 : List (String × α))
    (h : l1.Perm l2) (hnd : (l1.map Prod.fst).Nodup) (k : String) :
    (eraseA l1 k).Perm (eraseA l2 k) := by
  have hnd2 : (l2.map Prod.fst).Nodup := hnd.perm (h.map _)
  by_cases hm : k ∈ l1.map Prod.fst
  · obtain ⟨v, hv⟩ := lookupA_isSome_of_mem l1 k hm
    have hv1 : (k, v) ∈ l1 := lookupA_mem _ _ _ hv
    have hv2 : (k, v) ∈ l2 := h.mem_iff.mp hv1
    have p1 := perm_cons_eraseA l1 k v hnd hv1
    have p2 := perm_cons_eraseA l2 k v hnd2 hv2
    exact (p1.symm.trans (h.trans p2)).cons_inv
  · have hm2 : k ∉ l2.map Prod.fst :=
      fun hx => hm (((h.map Prod.fst).mem_iff).mpr hx)
    rw [eraseA_not_mem _ _ hm, eraseA_not_mem _ _ hm2]
    exact h

theorem setA_perm_cons_erase {α : Type} (l : List (String × α))
    (k : String) (v : α) (hm : k ∈ l.map Prod.fst) :
    (setA l k v).Perm ((k, v) :: eraseA l k) := by
  induction l with
  | nil => cases hm
  | cons e es ih =>
    unfold setA eraseA
    by_cases h0 : e.1 = k
    · rw [if_pos h0, if_pos h0]
    · rw [if_neg h0, if_neg h0]
      have hm2 : k ∈ es.map Prod.fst := by
        rw [List.map_cons] at hm
        rcases List.mem_cons.mp hm with h1 | h1
        · exact absurd h1.symm h0
        · exact h1
      exact (List.Perm.cons e (ih hm2)).trans (List.Perm.swap _ _ _)

theorem setA_perm {α : Type} (l1 l2 : List (String × α))
    (h : l1.Perm l2) (hnd : (l1.map Prod.fst).Nodup) (k : String) (v : α) :
    (setA l1 k v).Perm (setA l2 k v) := by
  by_cases hm : k ∈ l1.map Prod.fst
  · have hm2 : k ∈ l2.map Prod.fst := ((h.map Prod.fst).mem_iff).mp hm
    have p1 := setA_perm_cons_erase l1 k v hm
    have p2 := setA_perm_cons_erase l2 k v hm2
    exact p1.trans (((eraseA_perm l1 l2 h hnd k).cons _).trans p2.symm)
  · have hm2 : k ∉ l2.map Prod.fst :=
      fun hx => hm (((h.map Prod.fst).mem_iff).mpr hx)
    rw [setA_of_not_mem _ _ _ hm, setA_of_not_mem _ _ _ hm2]
    exact h.append_right _

/-- The greedy insertion step sends permuted (reordered) cluster maps to
permuted cluster maps: the key scan finds the unique qualifying key, so
the dict iteration order never influences the outcome. -/
theorem insertItem_perm (st1 st2 : List (String × ClusterData)) (it : Item)
    (hinv : KeyInv st1) (hperm : st1.Perm st2) :
    (insertItem st1 it).Perm (insertItem st2 it) := by
  have hkeysperm := hperm.map Prod.fst
  have hnd2 : (st2.map Prod.fst).Nodup := hinv.nodup.perm hkeysperm
  have hfb : findBest it.norm (st1.map Prod.fst)
      = findBest it.norm (st2.map Prod.fst) := by
    by_cases hex : ∃ k, k ∈ st1.map Prod.fst ∧ 4 ≤ prefLen it.norm k
    · obtain ⟨k0, hk0, h4⟩ := hex
      have huniq := best_unique (st1.map Prod.fst) it.norm k0
        (prefLen it.norm k0) hinv.sep hk0 rfl h4
      have hk0b : k0 ∈ st2.map Prod.fst := hkeysperm.mem_iff.mp hk0
      have huniq2 : ∀ k ∈ st2.map Prod.fst, k ≠ k0 →
          prefLen it.norm k < 4 :=
        fun k hk hne => huniq k (hkeysperm.mem_iff.mpr hk) hne
      rw [findBest_eq_of_unique it.norm _ k0 hinv.nodup hk0 h4 huniq,
        findBest_eq_of_unique it.norm _ k0 hnd2 hk0b h4 huniq2]
    · push_neg at hex
      have h1 : ∀ k ∈ st1.map Prod.fst, prefLen it.norm k < 4 := hex
      have h2 : ∀ k ∈ st2.map Prod.fst, prefLen it.norm k < 4 :=
        fun k hk => h1 k (hkeysperm.mem_iff.mpr hk)
      rw [findBest_none_of_all _ _ h1, findBest_none_of_all _ _ h2]
  unfold insertItem
  rw [hfb]
  rcases hf2 : findBest it.norm (st2.map Prod.fst) with ⟨ob, bp⟩
  cases ob with
  | none =>
    show (setA st1 it.norm (seedData it)).Perm (setA st2 it.norm (seedData it))
    exact setA_perm st1 st2 hperm hinv.nodup _ _
  | some bk =>
    show (mergeStep st1 it bk bp).Perm (mergeStep st2 it bk bp)
    obtain ⟨hbk2, hbp, h4⟩ := findBest_some _ _ _ _ hf2
    have hbk1 : bk ∈ st1.map Prod.fst := hkeysperm.mem_iff.mpr hbk2
    have hlk := lookupA_perm st1 st2 hperm hinv.nodup bk
    have hrkperm : (mergeRekey st1 it bk bp).Perm
        (mergeRekey st2 it bk bp) := by
      unfold mergeRekey
      by_cases hceq : takePre bp it.norm = bk
      · rw [if_pos hceq, if_pos hceq]
        exact hperm
      · rw [if_neg hceq, if_neg hceq, ← hlk]
        have hndE : ((eraseA st1 bk).map Prod.fst).Nodup :=
          hinv.nodup.sublist ((eraseA_sublist st1 bk).map Prod.fst)
        exact setA_perm _ _ (eraseA_perm st1 st2 hperm hinv.nodup bk)
          hndE _ _
    have hrkinv := (mergeRekey_inv st1 it bk bp hinv hbk1 hbp h4).1
    have hlk2 := lookupA_perm _ _ hrkperm hrkinv.nodup (takePre bp it.norm)
    unfold mergeStep
    rw [← hlk2]
    exact setA_perm _ _ hrkperm hrkinv.nodup _ _

theorem foldl_insertItem_perm (items : List Item)
    (st1 st2 : List (String × ClusterData)) (hinv : KeyInv st1)
    (hperm : st1.Perm st2) :
    (items.foldl insertItem st1).Perm (items.foldl insertItem st2) := by
  induction items generalizing st1 st2 with
  | nil => exact hperm
  | cons it items ih =>
    simp only [List.foldl_cons]
    exact ih (insertItem st1 it) (insertItem st2 it)
      (insertItem_KeyInv st1 it hinv) (insertItem_perm st1 st2 it hinv hperm)

/-- Two sorted pair lists that are permutations of each other with
distinct keys are equal. -/
theorem sortedPairs_eq (l1 l2 : List (String × ClusterData))
    (hperm : l1.Perm l2) (hnd : (l1.map Prod.fst).Nodup)
    (h1 : l1.Pairwise (fun a b => strLe a.1 b.1 = true))
    (h2 : l2.Pairwise (fun a b => strLe a.1 b.1 = true)) : l1 = l2 := by
  have hnd2 : (l2.map Prod.fst).Nodup := hnd.perm (hperm.map _)
  have hne1 : l1.Pairwise (fun a b => a.1 ≠ b.1) := List.pairwise_map.mp hnd
  have hne2 : l2.Pairwise (fun a b => a.1 ≠ b.1) := List.pairwise_map.mp hnd2
  have hs1 := h1.and hne1
  have hs2 := h2.and hne2
  haveI : IsAntisymm (String × ClusterData)
      (fun a b => strLe a.1 b.1 = true ∧ a.1 ≠ b.1) :=
    ⟨fun a b hab hba => (hab.2 (strLe_antisymm _ _ hab.1 hba.1)).elim⟩
  exact List.eq_of_perm_of_sorted hperm hs1 hs2

/-- Claim C9: the clustering and domain-assignment pipeline is
deterministic.  In this embedding both stages are pure functions of
their inputs, so running them twice on a fixed input trivially agrees
(second conjunct); the only step of the source that could depend on an
unpinned order is the scan over `clusters_map.keys()`, and the first
conjunct proves that the final sorted cluster list is invariant under
any reordering of the map entries, so the dict iteration order cannot
influence the output. -/
theorem clustering_deterministic :
    (∀ (items : List Item) (st1 st2 : List (String × ClusterData)),
      KeyInv st1 → st1.Perm st2 →
      sortBy (fun (a b : String × ClusterData) => strLe a.1 b.1)
          (items.foldl insertItem st1)
        = sortBy (fun (a b : String × ClusterData) => strLe a.1 b.1)
          (items.foldl insertItem st2)) ∧
    (∀ (ui : List UiComponent) (sf : List ServerlessFunction)
        (fs : List FeatureRec) (root : RootInfo) (sps : List SubProject)
        (ip : List InfraPattern),
      cluster_features ui sf fs = cluster_features ui sf fs ∧
      detect_domains root sps (cluster_features ui sf fs) ip
        = detect_domains root sps (cluster_features ui sf fs) ip) := by
  constructor
  · intro items st1 st2 hinv hperm
    have hrun := foldl_insertItem_perm items st1 st2 hinv hperm
    have hinv1 := foldl_KeyInv items st1 hinv
    have htr : ∀ a b c : String × ClusterData, strLe a.1 b.1 = true →
        strLe b.1 c.1 = true → strLe a.1 c.1 = true :=
      fun a b c => strLe_trans a.1 b.1 c.1
    have hto : ∀ a b : String × ClusterData,
        strLe a.1 b.1 = true ∨ strLe b.1 a.1 = true :=
      fun a b => strLe_total a.1 b.1
    apply sortedPairs_eq
    · exact (sortBy_perm _ _).trans (hrun.trans (sortBy_perm _ _).symm)
    · exact hinv1.nodup.perm ((sortBy_perm _ _).symm.map _)
    · exact sortBy_sorted _ htr hto _
    · exact sortBy_sorted _ htr hto _
  · intro ui sf fs root sps ip
    exact ⟨rfl, rfl⟩

/-- Claim C9 witness: inserting a candidate into the same two-cluster
map stored in either order yields the same sorted cluster list. -/
theorem clustering_deterministic_witness :
    KeyInv c9st1 ∧ c9st1.Perm c9st2 ∧
    sortBy (fun (a b : String × ClusterData) => strLe a.1 b.1)
        ([c9item].foldl insertItem c9st1)
      = sortBy (fun (a b : String × ClusterData) => strLe a.1 b.1)
        ([c9item].foldl insertItem c9st2) := by
  have hinv : KeyInv c9st1 := ⟨by decide, by decide⟩
  have hperm : c9st1.Perm c9st2 := List.Perm.swap _ _ _
  exact ⟨hinv, hperm,
    clustering_deterministic.1 [c9item] c9st1 c9st2 hinv hperm⟩

end Discover
